import Mathlib

/-!
# Taraz tourist places service (`main.go`)

A shallow embedding of the request handlers and of the persistence code of
`main.go`, followed by the properties proved about them.

Conventions of the embedding.

* The package-level variables `places`, `lastID` and the file `places.json`
  become the fields of `State`; every handler is a function from the state
  and the decoded request to the new state and the response.
* `float64` fields are kept over an arbitrary carrier `F`.  The handlers only
  copy such values, except `addRating`, which applies the carrier's `+` and
  `/` once, and `encoding/json`, which refuses a value that is not finite:
  `Finiteness F` tells which values are.
* A JSON text is represented by the records it prints: `encoding/json` prints
  strings and finite numbers so that it reads them back unchanged.
* Go's `int` is the 64-bit two's complement integer: `lastID++` wraps.
* `strconv.Atoi`, `strconv.Itoa` and the `gorilla/mux` matcher belong to
  libraries; they are written out here after their documented behaviour.
-/

namespace Hackaton

/-! ## Data model -/

/-- Place represents a tourist place (the struct `Place`). -/
structure Place (F : Type) where
  ID : String
  PlaceName : String
  Rating : F
  Description : String
  PhotoURLs : List String
  Comments : List String
  Longitude : F
  Latitude : F
deriving DecidableEq, Repr

/-- Whether a `float64` value is finite, that is neither an infinity nor NaN.
These are the values `encoding/json` prints; on any other it returns an
`UnsupportedValueError`. -/
class Finiteness (F : Type) where
  isFinite : F → Bool

/-- Whether `encoding/json` can print a place: its three numbers are finite
(its strings always print). -/
def Place.encodable {F : Type} [Finiteness F] (p : Place F) : Bool :=
  Finiteness.isFinite p.Rating && Finiteness.isFinite p.Longitude &&
    Finiteness.isFinite p.Latitude

/-- What a call of `ioutil.WriteFile(jsonFile, data, 0644)` leaves in
`places.json`: the indented JSON text of a collection, or no byte at all when
`data` is `nil`. -/
inductive FileContent (F : Type) where
  | json (ps : List (Place F))
  | noBytes
deriving DecidableEq, Repr

/-- The package-level variables: the slice `places`, the counter `lastID`, and
the file `places.json`, kept as the list of what the calls of
`ioutil.WriteFile` left in it, most recent first. -/
structure State (F : Type) where
  places : List (Place F)
  lastID : Int
  writes : List (FileContent F)
deriving DecidableEq, Repr

/-- What the client receives as the response body. -/
inductive Body (F : Type) where
  | empty
  | place (p : Place F)
  | places (ps : List (Place F))
  | text (msg : String)
deriving DecidableEq, Repr

/-- The status line and the body of a response. -/
structure Response (F : Type) where
  status : Nat
  body : Body F
deriving DecidableEq, Repr

/-! ## Machine integers and `strconv` -/

/-- Largest value of Go's `int` on a 64-bit platform. -/
def maxInt : Int := 2 ^ 63 - 1

/-- Smallest value of Go's `int` on a 64-bit platform. -/
def minInt : Int := -(2 ^ 63)

/-- Largest value of `uint64`. -/
def maxUint64 : Nat := 2 ^ 64 - 1

/-- Two's complement wrap-around of an integer into the range of `int`. -/
def wrapInt (x : Int) : Int := (x + 2 ^ 63) % 2 ^ 64 - 2 ^ 63

/-- Outcome of `strconv.ParseUint`: a value, `ErrSyntax` or `ErrRange`. -/
inductive ParseResult where
  | ok (n : Nat)
  | syntaxErr
  | rangeErr
deriving DecidableEq, Repr

/-- The digit loop of `strconv.ParseUint(s, 10, 64)`: `n` is the value read so
far.  A byte that is not a decimal digit is a syntax error; a value that
leaves `uint64` is a range error, reported as soon as it is met. -/
def parseUintLoop : List Char → Nat → ParseResult
  | [], n => .ok n
  | c :: cs, n =>
    if c.isDigit then
      if n ≥ maxUint64 / 10 + 1 then .rangeErr
      else if n * 10 + (c.toNat - 48) > maxUint64 then .rangeErr
      else parseUintLoop cs (n * 10 + (c.toNat - 48))
    else .syntaxErr

/-- The function `strconv.ParseUint(s, 10, 64)`: the empty string is a syntax
error. -/
def parseUint (cs : List Char) : ParseResult :=
  match cs with
  | [] => .syntaxErr
  | _ => parseUintLoop cs 0

/-- The value returned by `strconv.ParseInt(s, 10, 0)`, the error dropped: `0`
on a syntax error, the nearest bound of `int` on a range error. -/
def parseInt (cs : List Char) : Int :=
  match cs with
  | [] => 0
  | c :: rest =>
    let neg : Bool := c == '-'
    let digits := if c == '+' || c == '-' then rest else c :: rest
    match parseUint digits with
    | .syntaxErr => 0
    | .rangeErr => if neg then minInt else maxInt
    | .ok un =>
      if !neg && decide (un ≥ 2 ^ 63) then maxInt
      else if neg && decide (un > 2 ^ 63) then minInt
      else if neg then -(un : Int) else (un : Int)

/-- The call `id, _ := strconv.Atoi(s)`: the value, whatever the error. -/
def Atoi (s : String) : Int := parseInt s.data

/-- The function `strconv.Itoa`: the decimal digits, after `-` for a negative
number. -/
def Itoa (n : Int) : String :=
  String.mk (if n < 0 then '-' :: Nat.toDigits 10 n.natAbs else Nat.toDigits 10 n.toNat)

/-! ## Persistence -/

/-- The startup result of `loadPlaces`.  The argument is `none` when
`os.Open` fails, and otherwise the slice that `json.Unmarshal` leaves in
`places` (its error is dropped).  `lastID` starts at `0` and is raised to every
larger `Atoi` of an ID. -/
def loadPlaces {F : Type} (file : Option (List (Place F))) : State F :=
  match file with
  | none => { places := [], lastID := 0, writes := [] }
  | some ps =>
    { places := ps
      lastID := ps.foldl (fun last p => if Atoi p.ID > last then Atoi p.ID else last) 0
      writes := [] }

/-- The call `json.MarshalIndent(places, "", "  ")`: the text of the
collection, or `none` (an error and `nil` data) when a number in it is not
finite. -/
def marshalIndent {F : Type} [Finiteness F] (ps : List (Place F)) : Option (List (Place F)) :=
  if ps.all Place.encodable then some ps else none

/-- The call `ioutil.WriteFile(jsonFile, data, 0644)`: the file holds the
text, or no byte when `data` is `nil`. -/
def writeFile {F : Type} (data : Option (List (Place F))) : FileContent F :=
  match data with
  | some ps => .json ps
  | none => .noBytes

/-- The function `savePlaces`: the text of the whole collection goes to the
file; the error of `MarshalIndent` is dropped, so on an error `WriteFile`
gets `nil` and leaves the file without a byte. -/
def savePlaces {F : Type} [Finiteness F] (s : State F) : State F :=
  { s with writes := writeFile (marshalIndent s.places) :: s.writes }

/-- What `json.Unmarshal(data, &places)` leaves in the empty `places` for the
content of a file: the records of a JSON text; nothing for a file without a
byte, where it returns an error, which `loadPlaces` drops. -/
def unmarshal {F : Type} (c : FileContent F) : List (Place F) :=
  match c with
  | .json ps => ps
  | .noBytes => []

/-- The state a restart of the program starts from when `places.json` holds
`c`: `loadPlaces` on that file. -/
def reload {F : Type} (c : FileContent F) : State F :=
  loadPlaces (some (unmarshal c))

/-- The call `json.NewEncoder(w).Encode(v)`: the value is printed to a buffer
first and sent only if that succeeds, so the client gets the value, or an
empty body when one of its numbers is not finite (the error is dropped). -/
def encode {F : Type} [Finiteness F] : Body F → Body F
  | .place p => if p.encodable then .place p else .empty
  | .places ps => if ps.all Place.encodable then .places ps else .empty
  | b => b

/-! ## Handlers -/

/-- Where the loops `for i, p := range places { if p.ID == params["id"] ...`
stop: the index `i` and the record `p` of the first record whose ID is `id`. -/
def findFirst {F : Type} : List (Place F) → String → Option (Nat × Place F)
  | [], _ => none
  | p :: rest, id =>
    if p.ID = id then some (0, p)
    else (findFirst rest id).map (fun ip => (ip.1 + 1, ip.2))

/-- The handler `getPlaces`. -/
def getPlaces {F : Type} [Finiteness F] (s : State F) : State F × Response F :=
  (s, ⟨200, encode (.places s.places)⟩)

/-- The handler `getPlaceByID`. -/
def getPlaceByID {F : Type} [Finiteness F] (s : State F) (id : String) :
    State F × Response F :=
  match findFirst s.places id with
  | some (_, p) => (s, ⟨200, encode (.place p)⟩)
  | none => (s, ⟨404, .empty⟩)

/-- The handler `addPlace`; `newPlace` is the decoded body.  Its numbers come
out of the JSON decoder, which stores finite values only, so the `Encode` of
the response prints the record. -/
def addPlace {F : Type} [Finiteness F] (s : State F) (newPlace : Place F) : State F × Response F :=
  let lastID := wrapInt (s.lastID + 1)
  let newPlace := { newPlace with ID := Itoa lastID }
  (savePlaces { s with lastID := lastID, places := s.places ++ [newPlace] },
    ⟨201, .place newPlace⟩)

/-- The handler `updatePlace`; `updatedPlace` is the decoded body. -/
def updatePlace {F : Type} [Finiteness F] (s : State F) (id : String) (updatedPlace : Place F) :
    State F × Response F :=
  match findFirst s.places id with
  | some (i, p) =>
    (savePlaces { s with places := s.places.set i { updatedPlace with ID := p.ID } },
      ⟨200, .empty⟩)
  | none => (s, ⟨404, .empty⟩)

/-- The handler `deletePlace`. -/
def deletePlace {F : Type} [Finiteness F] (s : State F) (id : String) : State F × Response F :=
  match findFirst s.places id with
  | some (i, _) => (savePlaces { s with places := s.places.eraseIdx i }, ⟨200, .empty⟩)
  | none => (s, ⟨200, .empty⟩)

/-- The handler `addComment`; `text` is the decoded `comment.Text`. -/
def addComment {F : Type} [Finiteness F] (s : State F) (id : String) (text : String) :
    State F × Response F :=
  match findFirst s.places id with
  | some (i, _) =>
    let places := s.places.modify (fun p => { p with Comments := p.Comments ++ [text] }) i
    (savePlaces { s with places := places }, ⟨200, .empty⟩)
  | none => (s, ⟨200, .empty⟩)

/-- The handler `addRating`; `value` is the decoded `rating.Value`. -/
def addRating {F : Type} [Add F] [Div F] [OfNat F 2] [Finiteness F] (s : State F) (id : String) (value : F) :
    State F × Response F :=
  match findFirst s.places id with
  | some (i, _) =>
    let places := s.places.modify (fun p => { p with Rating := (p.Rating + value) / 2 }) i
    (savePlaces { s with places := places }, ⟨200, .empty⟩)
  | none => (s, ⟨200, .empty⟩)

/-- The handler `addPhoto`; `photo` is `none` when decoding the body fails and
the decoded `photo.URL` otherwise. -/
def addPhoto {F : Type} [Finiteness F] (s : State F) (id : String) (photo : Option String) :
    State F × Response F :=
  match photo with
  | none => (s, ⟨400, .text "Invalid request body\n"⟩)
  | some url =>
    match findFirst s.places id with
    | some (i, _) =>
      let places := s.places.modify (fun p => { p with PhotoURLs := p.PhotoURLs ++ [url] }) i
      (savePlaces { s with places := places }, ⟨200, .empty⟩)
    | none => (s, ⟨404, .empty⟩)

/-! ## Sequences of handler calls -/

/-- One handler call, with the path variable and the decoded body it reads. -/
inductive Request (F : Type) where
  | getPlaces
  | getPlaceByID (id : String)
  | addPlace (newPlace : Place F)
  | updatePlace (id : String) (updatedPlace : Place F)
  | deletePlace (id : String)
  | addComment (id : String) (text : String)
  | addRating (id : String) (value : F)
  | addPhoto (id : String) (photo : Option String)
deriving DecidableEq, Repr

/-- Runs the handler a request names. -/
def handle {F : Type} [Add F] [Div F] [OfNat F 2] [Finiteness F] (s : State F) :
    Request F → State F × Response F
  | .getPlaces => getPlaces s
  | .getPlaceByID id => getPlaceByID s id
  | .addPlace newPlace => addPlace s newPlace
  | .updatePlace id updatedPlace => updatePlace s id updatedPlace
  | .deletePlace id => deletePlace s id
  | .addComment id text => addComment s id text
  | .addRating id value => addRating s id value
  | .addPhoto id photo => addPhoto s id photo

/-- Runs the handler calls one after the other (the mutex makes the mutations
sequential); returns the final state and the responses in call order. -/
def run {F : Type} [Add F] [Div F] [OfNat F 2] [Finiteness F] (s : State F) :
    List (Request F) → State F × List (Response F)
  | [] => (s, [])
  | r :: rest =>
    let step := handle s r
    let tail := run step.1 rest
    (tail.1, step.2 :: tail.2)

/-- Number of `addPlace` calls in a sequence. -/
def countAdds {F : Type} : List (Request F) → Nat
  | [] => 0
  | .addPlace _ :: rest => countAdds rest + 1
  | _ :: rest => countAdds rest

/-- The ID that a call returned, when the call is an `addPlace`: read off
its response. -/
def createdID {F : Type} : Request F → Response F → Option String
  | .addPlace _, ⟨_, .place p⟩ => some p.ID
  | _, _ => none

/-- The IDs that the `addPlace` calls of a sequence returned, in call order. -/
def createdIDs {F : Type} (reqs : List (Request F)) (resps : List (Response F)) : List String :=
  (reqs.zip resps).filterMap (fun rr => createdID rr.1 rr.2)

/-- The store before anything was created: no places, counter `0`. -/
def emptyStore {F : Type} : State F := { places := [], lastID := 0, writes := [] }

/-! ## The route table of `main` -/

/-- One segment of a `gorilla/mux` path template: literal text, or a variable
such as `{id}`, which stands for one or more bytes other than `/`. -/
inductive Seg where
  | lit (text : List Char)
  | var (name : List Char)
deriving DecidableEq, Repr

/-- The functions that `main.go` defines as handlers, and the Swagger handler
of `httpSwagger`. -/
inductive Handler where
  | getPlaces
  | getPlaceByID
  | addPlace
  | updatePlace
  | deletePlace
  | addComment
  | addRating
  | addPhoto
  | swagger
deriving DecidableEq, Repr

/-- A registered route: `r.HandleFunc(template, handler).Methods(method)`, or
`r.PathPrefix(template).Handler(handler)` when `method` is `none` and
`wholePath` is `false`. -/
structure Route where
  template : String
  handler : Handler
  method : Option String
  wholePath : Bool
deriving DecidableEq, Repr

/-- The routes that `main` registers, in registration order. -/
def routes : List Route :=
  [ ⟨"/places", .getPlaces, some "GET", true⟩,
    ⟨"/places/{id}", .getPlaceByID, some "GET", true⟩,
    ⟨"/places", .addPlace, some "POST", true⟩,
    ⟨"/places/{id}", .updatePlace, some "PUT", true⟩,
    ⟨"/places/{id}", .deletePlace, some "DELETE", true⟩,
    ⟨"/places/{id}/comment", .addComment, some "POST", true⟩,
    ⟨"/places/{id}/rating", .addRating, some "POST", true⟩,
    ⟨"/swagger/", .swagger, none, false⟩ ]

/-- Cuts a path at every `/`. -/
def splitSlash : List Char → List (List Char)
  | [] => [[]]
  | c :: cs =>
    if c = '/' then [] :: splitSlash cs
    else
      match splitSlash cs with
      | [] => [[c]]
      | seg :: segs => (c :: seg) :: segs

/-- Reads one template segment: `{name}` is a variable, anything else is
literal text. -/
def parseSeg (seg : List Char) : Seg :=
  match seg with
  | '{' :: rest => if rest.getLast? = some '}' then .var rest.dropLast else .lit seg
  | _ => .lit seg

/-- Matches the segments of a template against the segments of a path and
collects the variables: the anchored regular expression that `mux` builds
from a template, a variable being `[^/]+`. -/
def matchSegs : List Seg → List (List Char) → Option (List (String × String))
  | [], [] => some []
  | .lit text :: ts, seg :: segs => if text = seg then matchSegs ts segs else none
  | .var name :: ts, seg :: segs =>
    if seg = [] then none
    else (matchSegs ts segs).map (fun vars => (String.mk name, String.mk seg) :: vars)
  | _, _ => none

/-- Path matcher of a route: the whole path against the template, or, for a
`PathPrefix` route without variables, the start of the path. -/
def matchPath (r : Route) (path : String) : Option (List (String × String)) :=
  if r.wholePath then matchSegs ((splitSlash r.template.data).map parseSeg) (splitSlash path.data)
  else if r.template.data.isPrefixOf path.data then some [] else none

/-- What `mux.Router` resolves a request to. -/
inductive Target where
  | handler (h : Handler) (vars : List (String × String))
  | methodNotAllowed
  | notFound
deriving DecidableEq, Repr

/-- The first route whose path and method both match, as `Router.Match` finds
it; `mismatch` records that some path matched under another method, which turns
the final not-found into 405. -/
def matchRoutes : List Route → String → String → Bool → Target
  | [], _, _, mismatch => if mismatch then .methodNotAllowed else .notFound
  | r :: rs, method, path, mismatch =>
    match matchPath r path with
    | none => matchRoutes rs method path mismatch
    | some vars =>
      if r.method = none ∨ r.method = some method then .handler r.handler vars
      else matchRoutes rs method path true

/-- The value `mux.Vars(r)["id"]`: the empty string when the variable is absent. -/
def pathVar (vars : List (String × String)) (name : String) : String :=
  match vars.lookup name with
  | some v => v
  | none => ""

/-- What `json.NewDecoder(r.Body).Decode` makes of one request body in each of
the handlers: the `Place` of `addPlace` and `updatePlace`, `comment.Text`,
`rating.Value`, and `photo.URL` or the decoding failure. -/
structure DecodedBody (F : Type) where
  place : Place F
  text : String
  value : F
  photo : Option String
deriving DecidableEq, Repr

/-- An incoming HTTP request. -/
structure HttpRequest (F : Type) where
  method : String
  path : String
  body : DecodedBody F
deriving DecidableEq, Repr

/-- The service as `http.ListenAndServe(":8080", r)` exposes it: the router
picks the handler; without a matching route it answers 404, or 405 when only
the method differs.  Paths are taken in clean form (no `//`, `.` or `..`
elements, which `mux` redirects).  The result is `none` for the Swagger
pages, which `httpSwagger` serves. -/
def serve {F : Type} [Add F] [Div F] [OfNat F 2] [Finiteness F] (s : State F) (req : HttpRequest F) :
    Option (State F × Response F) :=
  match matchRoutes routes req.method req.path false with
  | .handler .getPlaces _ => some (getPlaces s)
  | .handler .getPlaceByID vars => some (getPlaceByID s (pathVar vars "id"))
  | .handler .addPlace _ => some (addPlace s req.body.place)
  | .handler .updatePlace vars => some (updatePlace s (pathVar vars "id") req.body.place)
  | .handler .deletePlace vars => some (deletePlace s (pathVar vars "id"))
  | .handler .addComment vars => some (addComment s (pathVar vars "id") req.body.text)
  | .handler .addRating vars => some (addRating s (pathVar vars "id") req.body.value)
  | .handler .addPhoto vars => some (addPhoto s (pathVar vars "id") req.body.photo)
  | .handler .swagger _ => none
  | .methodNotAllowed => some (s, ⟨405, .empty⟩)
  | .notFound => some (s, ⟨404, .text "404 page not found\n"⟩)

/-! ## Notions used to state the properties -/

/-- Whether a call is a mutation that succeeds in state `s`: an `addPlace`,
or an `updatePlace`, `deletePlace`, `addComment`, `addRating` or (with a body
that decodes) `addPhoto` on an ID that some record has. -/
def mutates {F : Type} (s : State F) : Request F → Bool
  | .getPlaces => false
  | .getPlaceByID _ => false
  | .addPlace _ => true
  | .updatePlace id _ => s.places.any (fun p => p.ID = id)
  | .deletePlace id => s.places.any (fun p => p.ID = id)
  | .addComment id _ => s.places.any (fun p => p.ID = id)
  | .addRating id _ => s.places.any (fun p => p.ID = id)
  | .addPhoto id (some _) => s.places.any (fun p => p.ID = id)
  | .addPhoto _ none => false

/-- The next identifier as the specification words it: one more than the
maximum over all records of the ID parsed as an integer (a non-numeric ID
counts as `0`), and `1` for the empty collection. -/
def specNextID {F : Type} (ps : List (Place F)) : Int :=
  match ps.map (fun p => Atoi p.ID) with
  | [] => 1
  | x :: xs => xs.foldl max x + 1

/-- The invariant on identifiers: the counter is not negative, the IDs in
the collection are pairwise distinct, and each is the decimal string of a
positive integer that is not greater than the counter. -/
def IdInvariant {F : Type} (s : State F) : Prop :=
  0 ≤ s.lastID ∧ (s.places.map (fun p => p.ID)).Nodup ∧
    ∀ p ∈ s.places, ∃ k : Nat, 1 ≤ k ∧ (k : Int) ≤ s.lastID ∧ p.ID = Nat.repr k

/-- The state after `n` calls of `addRating` with the same ID and value. -/
def rateTimes {F : Type} [Add F] [Div F] [OfNat F 2] [Finiteness F] (id : String) (value : F) :
    Nat → State F → State F
  | 0, s => s
  | n + 1, s => rateTimes id value n (addRating s id value).1

/-! ## Carriers for the examples -/

/-- Exact rationals: every value is finite. -/
instance : Finiteness ℚ := ⟨fun _ => true⟩

/-- A `float64` value as far as the overflow examples need it: a finite
number, kept as an exact rational, one of the two infinities, or NaN.
Rounding to 53 bits and the sign of zero are left out. -/
inductive Double where
  | finite (q : ℚ)
  | posInf
  | negInf
  | nan
deriving DecidableEq

namespace Double

/-- The largest finite `float64`, `math.MaxFloat64`, which is what the JSON
number `1.7976931348623157e308` decodes to. -/
def maxFloat64 : ℚ := 2 ^ 1024 - 2 ^ 971

/-- The least magnitude that rounds to an infinity: halfway between
`maxFloat64` and `2^1024`. -/
def overflowAt : ℚ := 2 ^ 1024 - 2 ^ 970

/-- The `float64` for an exact result: an infinity from `overflowAt` on. -/
def ofRat (q : ℚ) : Double :=
  if overflowAt ≤ q then posInf else if q ≤ -overflowAt then negInf else finite q

/-- Addition of `float64` values. -/
def add : Double → Double → Double
  | finite a, finite b => ofRat (a + b)
  | nan, _ => nan
  | _, nan => nan
  | posInf, negInf => nan
  | negInf, posInf => nan
  | posInf, _ => posInf
  | _, posInf => posInf
  | negInf, _ => negInf
  | _, negInf => negInf

/-- Division of `float64` values. -/
def div : Double → Double → Double
  | finite a, finite b =>
    if b = 0 then (if a = 0 then nan else if 0 < a then posInf else negInf) else ofRat (a / b)
  | nan, _ => nan
  | _, nan => nan
  | finite _, _ => finite 0
  | posInf, finite b => if 0 ≤ b then posInf else negInf
  | negInf, finite b => if 0 ≤ b then negInf else posInf
  | _, _ => nan

instance : Add Double := ⟨add⟩

instance : Div Double := ⟨div⟩

instance (n : Nat) : OfNat Double n := ⟨finite n⟩

instance : Finiteness Double := ⟨fun x => match x with | finite _ => true | _ => false⟩

end Double

/-! ## Sample data -/

/-- A record as `{"placeName":"Aisha Bibi"}` decodes: every other field zero. -/
def aishaBibi : Place ℚ :=
  { ID := "", PlaceName := "Aisha Bibi", Rating := 0, Description := "",
    PhotoURLs := [], Comments := [], Longitude := 0, Latitude := 0 }

/-- A stored record with ID `1`, one photo and one comment. -/
def karakhan : Place ℚ :=
  { ID := "1", PlaceName := "Karakhan", Rating := 4, Description := "mausoleum",
    PhotoURLs := ["k.png"], Comments := ["quiet"], Longitude := 71, Latitude := 42 }

/-- A stored record with ID `2` and rating `1`. -/
def tekturmas : Place ℚ :=
  { ID := "2", PlaceName := "Tekturmas", Rating := 1, Description := "hill",
    PhotoURLs := [], Comments := ["windy"], Longitude := 71, Latitude := 43 }

/-- A record whose ID is the largest `int`, as a file can hold. -/
def lastPlace : Place ℚ :=
  { ID := "9223372036854775807", PlaceName := "Last", Rating := 0, Description := "",
    PhotoURLs := [], Comments := [], Longitude := 0, Latitude := 0 }

/-- A second record that carries ID `1`, as a hand-edited file can hold. -/
def karakhanCopy : Place ℚ :=
  { ID := "1", PlaceName := "Karakhan (copy)", Rating := 2, Description := "",
    PhotoURLs := [], Comments := [], Longitude := 0, Latitude := 0 }

/-- How the body `{"url":"k2.png"}` decodes in each handler. -/
def photoBody : DecodedBody ℚ :=
  { place := { ID := "", PlaceName := "", Rating := 0, Description := "", PhotoURLs := [],
               Comments := [], Longitude := 0, Latitude := 0 },
    text := "", value := 0, photo := some "k2.png" }

/-- A body that is not JSON: decoding fails in every handler. -/
def malformedBody : DecodedBody ℚ := { photoBody with photo := none }

/-- A record whose ID reads as a negative number, as a file can hold. -/
def negativePlace : Place ℚ :=
  { ID := "-5", PlaceName := "Below", Rating := 0, Description := "",
    PhotoURLs := [], Comments := [], Longitude := 0, Latitude := 0 }

/-- A record as `{"placeName":"Peak","rating":1.7976931348623157e308}`
decodes. -/
def peak : Place Double :=
  { ID := "", PlaceName := "Peak", Rating := .finite Double.maxFloat64, Description := "",
    PhotoURLs := [], Comments := [], Longitude := 0, Latitude := 0 }

/-- The state after `POST /places` with the record above on the empty store
and `POST /places/1/rating` with body `{"value":1.7976931348623157e308}`. -/
def overflowedState : State Double :=
  (addRating (addPlace emptyStore peak).1 "1" (.finite Double.maxFloat64)).1

/-- After `done` creations, `n` rounds of creating a place and deleting it
again: the collection never holds more than one record. -/
def churn (q : Place ℚ) : Nat → Nat → List (Request ℚ)
  | _, 0 => []
  | done, n + 1 => .addPlace q :: .deletePlace (Nat.repr (done + 1)) :: churn q (done + 1) n

/-- A run of calls: a creation, a deletion and a rating. -/
def sampleCalls : List (Request ℚ) :=
  [.addPlace aishaBibi, .deletePlace "1", .addRating "2" 5]

/-- The scenario of two creations, a deletion and a third creation. -/
def scenarioCalls : List (Request ℚ) :=
  [.addPlace aishaBibi, .addPlace tekturmas, .deletePlace "1", .addPlace karakhan]

/-- The state after loading a file with the three records above. -/
def sampleState : State ℚ := loadPlaces (some [karakhan, tekturmas, karakhanCopy])

end Hackaton

namespace Hackaton

/-! ## The scan for the first record with a given ID -/

theorem findFirst_none {F : Type} (ps : List (Place F)) (id : String) :
    findFirst ps id = none ↔ ∀ x ∈ ps, x.ID ≠ id := by
  induction ps with
  | nil => simp [findFirst]
  | cons p rest ih =>
    by_cases h : p.ID = id
    · simp [findFirst, h]
    · simp [findFirst, h, ih]

theorem findFirst_append {F : Type} (pre : List (Place F)) (p : Place F) (post : List (Place F))
    (id : String) (hpre : ∀ x ∈ pre, x.ID ≠ id) (hp : p.ID = id) :
    findFirst (pre ++ p :: post) id = some (pre.length, p) := by
  induction pre with
  | nil => simp [findFirst, hp]
  | cons q rest ih =>
    have hq : q.ID ≠ id := hpre q (List.mem_cons_self _ _)
    have hrest : ∀ x ∈ rest, x.ID ≠ id := fun x hx => hpre x (List.mem_cons_of_mem _ hx)
    simp [findFirst, hq, ih hrest]

theorem findFirst_some {F : Type} (ps : List (Place F)) (id : String) (i : Nat) (p : Place F)
    (h : findFirst ps id = some (i, p)) :
    ∃ pre post, ps = pre ++ p :: post ∧ pre.length = i ∧ p.ID = id ∧ ∀ x ∈ pre, x.ID ≠ id := by
  induction ps generalizing i with
  | nil => simp [findFirst] at h
  | cons q rest ih =>
    by_cases hq : q.ID = id
    · simp only [findFirst, hq, if_true, Option.some.injEq, Prod.mk.injEq] at h
      obtain ⟨hi, hqp⟩ := h
      subst hi; subst hqp
      exact ⟨[], rest, rfl, rfl, hq, by simp⟩
    · simp only [findFirst, hq, if_false, Option.map_eq_some', Prod.mk.injEq] at h
      obtain ⟨⟨j, r⟩, hj, hi, hr⟩ := h
      simp only at hi hr
      subst hr
      obtain ⟨pre, post, hps, hlen, hid, hall⟩ := ih j hj
      refine ⟨q :: pre, post, by simp [hps], by simp [hlen, hi], hid, ?_⟩
      intro x hx
      rcases List.mem_cons.mp hx with rfl | hx
      · exact hq
      · exact hall x hx

theorem findFirst_isSome {F : Type} (ps : List (Place F)) (id : String)
    (h : ∃ x ∈ ps, x.ID = id) :
    ∃ pre p post, ps = pre ++ p :: post ∧ p.ID = id ∧ (∀ x ∈ pre, x.ID ≠ id) ∧
      findFirst ps id = some (pre.length, p) := by
  cases hf : findFirst ps id with
  | none =>
    obtain ⟨x, hx, hid⟩ := h
    exact absurd hid ((findFirst_none ps id).mp hf x hx)
  | some ip =>
    obtain ⟨i, p⟩ := ip
    obtain ⟨pre, post, hps, hlen, hid, hall⟩ := findFirst_some ps id i p hf
    exact ⟨pre, p, post, hps, hid, hall, by rw [hlen]⟩

/-! ## Editing one position of a list -/

theorem eraseIdx_length_append {α : Type} (pre : List α) (p : α) (post : List α) :
    (pre ++ p :: post).eraseIdx pre.length = pre ++ post := by
  induction pre with
  | nil => rfl
  | cons q rest ih => simp [List.eraseIdx, ih]

theorem set_length_append {α : Type} (pre : List α) (p q : α) (post : List α) :
    (pre ++ p :: post).set pre.length q = pre ++ q :: post := by
  induction pre with
  | nil => rfl
  | cons r rest ih => simp [List.set, ih]

theorem modify_length_append {α : Type} (f : α → α) (pre : List α) (p : α) (post : List α) :
    (pre ++ p :: post).modify f pre.length = pre ++ f p :: post := by
  induction pre with
  | nil => rfl
  | cons r rest ih => simp [List.modify_succ_cons, ih]

/-! ## Deleting -/

/-- C3: when no record of the collection has ID `id`, `deletePlace` answers
200 and leaves the records, their order, their fields, the counter and the
file as they were. -/
theorem deletePlace_absent {F : Type} [Finiteness F] (s : State F) (id : String)
    (h : ∀ x ∈ s.places, x.ID ≠ id) :
    (deletePlace s id).2.status = 200 ∧ (deletePlace s id).1.places = s.places ∧
      (deletePlace s id).1.lastID = s.lastID ∧ (deletePlace s id).1 = s := by
  have hf := (findFirst_none s.places id).mpr h
  simp [deletePlace, hf]

theorem deletePlace_absent_witness :
    (∀ x ∈ sampleState.places, x.ID ≠ "7") ∧
      (deletePlace sampleState "7").2.status = 200 ∧
      (deletePlace sampleState "7").1.places = [karakhan, tekturmas, karakhanCopy] ∧
      (deletePlace sampleState "7").1.lastID = sampleState.lastID ∧
      (deletePlace sampleState "7").1 = sampleState :=
  ⟨by decide, deletePlace_absent sampleState "7" (by decide)⟩

/-- C4: when some record has ID `id`, `deletePlace` answers 200 and the new
collection is the old one without the first record whose ID is `id`: the
records before it and all the records after it (later ones with the same ID
included) stay, unchanged and in the same order, and the length drops by
one. -/
theorem deletePlace_present {F : Type} [Finiteness F] (s : State F) (id : String)
    (h : ∃ x ∈ s.places, x.ID = id) :
    (deletePlace s id).2.status = 200 ∧
      ∃ pre p post, s.places = pre ++ p :: post ∧ p.ID = id ∧ (∀ x ∈ pre, x.ID ≠ id) ∧
        (deletePlace s id).1.places = pre ++ post ∧
        (deletePlace s id).1.places.length + 1 = s.places.length := by
  obtain ⟨pre, p, post, hps, hid, hall, hf⟩ := findFirst_isSome s.places id h
  refine ⟨by simp [deletePlace, hf], pre, p, post, hps, hid, hall, ?_⟩
  have hplaces : (deletePlace s id).1.places = pre ++ post := by
    simp only [deletePlace, hf, savePlaces]
    rw [hps, eraseIdx_length_append]
  refine ⟨hplaces, ?_⟩
  rw [hplaces, hps]
  simp
  omega

theorem deletePlace_present_witness :
    (∃ x ∈ sampleState.places, x.ID = "1") ∧
      (deletePlace sampleState "1").2.status = 200 ∧
      ∃ pre p post, sampleState.places = pre ++ p :: post ∧ p.ID = "1" ∧
        (∀ x ∈ pre, x.ID ≠ "1") ∧
        (deletePlace sampleState "1").1.places = pre ++ post ∧
        (deletePlace sampleState "1").1.places.length + 1 = sampleState.places.length :=
  ⟨⟨karakhan, by decide, rfl⟩, deletePlace_present sampleState "1" ⟨karakhan, by decide, rfl⟩⟩

/-! ## Rating -/

/-- C5: `addRating` always answers 200.  When the first record whose ID is `id`
has rating `r`, its rating becomes `(r + v) / 2` and nothing else in the
collection or the counter changes; when no record has that ID, the state is
left as it was. -/
theorem addRating_halves {F : Type} [Add F] [Div F] [OfNat F 2] [Finiteness F] (s : State F) (id : String)
    (v : F) :
    (addRating s id v).2.status = 200 ∧
      ((∀ x ∈ s.places, x.ID ≠ id) → (addRating s id v).1 = s) ∧
      (∀ pre p post, s.places = pre ++ p :: post → (∀ x ∈ pre, x.ID ≠ id) → p.ID = id →
        (addRating s id v).1.places = pre ++ { p with Rating := (p.Rating + v) / 2 } :: post ∧
          (addRating s id v).1.lastID = s.lastID) := by
  refine ⟨?_, ?_, ?_⟩
  · cases hf : findFirst s.places id <;> simp [addRating, hf]
  · intro h
    have hf := (findFirst_none s.places id).mpr h
    simp [addRating, hf]
  · intro pre p post hps hall hid
    have hf : findFirst s.places id = some (pre.length, p) := by
      rw [hps]; exact findFirst_append pre p post id hall hid
    refine ⟨?_, by simp [addRating, hf, savePlaces]⟩
    simp only [addRating, hf, savePlaces]
    rw [hps, modify_length_append]

theorem addRating_halves_witness :
    (addRating sampleState "2" 5).2.status = 200 ∧
      (addRating sampleState "9" 5).1 = sampleState ∧
      (addRating sampleState "2" 5).1.places =
        [karakhan, { tekturmas with Rating := 3 }, karakhanCopy] := by
  refine ⟨(addRating_halves sampleState "2" 5).1,
    (addRating_halves sampleState "9" 5).2.1 (by decide), ?_⟩
  have h := ((addRating_halves sampleState "2" 5).2.2 [karakhan] tekturmas [karakhanCopy]
    rfl (by decide) rfl).1
  rw [h]
  norm_num [tekturmas]

/-! ## Updating -/

/-- C6: when some record has ID `id`, `updatePlace` with decoded body `q`
answers 200; the first record whose ID is `id` keeps its ID and takes every
other field from `q`, empty or default values included; the other records,
the order, the length and the counter stay as they were. -/
theorem updatePlace_present {F : Type} [Finiteness F] (s : State F) (id : String) (q : Place F)
    (h : ∃ x ∈ s.places, x.ID = id) :
    (updatePlace s id q).2.status = 200 ∧
      (updatePlace s id q).1.lastID = s.lastID ∧
      (updatePlace s id q).1.places.length = s.places.length ∧
      ∃ pre p post, s.places = pre ++ p :: post ∧ p.ID = id ∧ (∀ x ∈ pre, x.ID ≠ id) ∧
        (updatePlace s id q).1.places =
          pre ++ { ID := p.ID, PlaceName := q.PlaceName, Rating := q.Rating,
                   Description := q.Description, PhotoURLs := q.PhotoURLs,
                   Comments := q.Comments, Longitude := q.Longitude,
                   Latitude := q.Latitude } :: post := by
  obtain ⟨pre, p, post, hps, hid, hall, hf⟩ := findFirst_isSome s.places id h
  have hplaces : (updatePlace s id q).1.places = pre ++ { q with ID := p.ID } :: post := by
    simp only [updatePlace, hf, savePlaces]
    rw [hps, set_length_append]
  refine ⟨by simp [updatePlace, hf], by simp [updatePlace, hf, savePlaces], ?_,
    pre, p, post, hps, hid, hall, hplaces⟩
  rw [hplaces, hps]
  simp

theorem updatePlace_present_witness :
    (∃ x ∈ sampleState.places, x.ID = "1") ∧
      (updatePlace sampleState "1" aishaBibi).2.status = 200 ∧
      (updatePlace sampleState "1" aishaBibi).1.lastID = sampleState.lastID ∧
      (updatePlace sampleState "1" aishaBibi).1.places.length = sampleState.places.length ∧
      ∃ pre p post, sampleState.places = pre ++ p :: post ∧ p.ID = "1" ∧
        (∀ x ∈ pre, x.ID ≠ "1") ∧
        (updatePlace sampleState "1" aishaBibi).1.places =
          pre ++ { ID := p.ID, PlaceName := aishaBibi.PlaceName, Rating := aishaBibi.Rating,
                   Description := aishaBibi.Description, PhotoURLs := aishaBibi.PhotoURLs,
                   Comments := aishaBibi.Comments, Longitude := aishaBibi.Longitude,
                   Latitude := aishaBibi.Latitude } :: post :=
  ⟨⟨karakhan, by decide, rfl⟩,
    updatePlace_present sampleState "1" aishaBibi ⟨karakhan, by decide, rfl⟩⟩

/-- C7: when no record has ID `id`, `updatePlace` answers 404 whatever the
body, writes nothing to the file, and leaves the collection and the counter
as they were. -/
theorem updatePlace_absent {F : Type} [Finiteness F] (s : State F) (id : String) (q : Place F)
    (h : ∀ x ∈ s.places, x.ID ≠ id) :
    (updatePlace s id q).2.status = 404 ∧ (updatePlace s id q).1.writes = s.writes ∧
      (updatePlace s id q).1.places = s.places ∧ (updatePlace s id q).1.lastID = s.lastID := by
  have hf := (findFirst_none s.places id).mpr h
  simp [updatePlace, hf]

theorem updatePlace_absent_witness :
    (∀ x ∈ sampleState.places, x.ID ≠ "7") ∧
      (updatePlace sampleState "7" aishaBibi).2.status = 404 ∧
      (updatePlace sampleState "7" aishaBibi).1.writes = sampleState.writes ∧
      (updatePlace sampleState "7" aishaBibi).1.places = sampleState.places ∧
      (updatePlace sampleState "7" aishaBibi).1.lastID = sampleState.lastID :=
  ⟨by decide, updatePlace_absent sampleState "7" aishaBibi (by decide)⟩

/-! ## Comments and photos on an absent ID -/

/-- C8: when no record has ID `id`, `addComment` answers 200 and leaves the
collection (and the rest of the state) as it was. -/
theorem addComment_absent {F : Type} [Finiteness F] (s : State F) (id : String) (text : String)
    (h : ∀ x ∈ s.places, x.ID ≠ id) :
    (addComment s id text).2.status = 200 ∧ (addComment s id text).1.places = s.places ∧
      (addComment s id text).1 = s := by
  have hf := (findFirst_none s.places id).mpr h
  simp [addComment, hf]

theorem addComment_absent_witness :
    (∀ x ∈ sampleState.places, x.ID ≠ "7") ∧
      (addComment sampleState "7" "lovely").2.status = 200 ∧
      (addComment sampleState "7" "lovely").1.places = sampleState.places ∧
      (addComment sampleState "7" "lovely").1 = sampleState :=
  ⟨by decide, addComment_absent sampleState "7" "lovely" (by decide)⟩

/-- C9: when the body decodes to a URL and no record has ID `id`, `addPhoto`
answers 404 and leaves the collection (and the rest of the state) as it
was. -/
theorem addPhoto_absent {F : Type} [Finiteness F] (s : State F) (id : String) (url : String)
    (h : ∀ x ∈ s.places, x.ID ≠ id) :
    (addPhoto s id (some url)).2.status = 404 ∧ (addPhoto s id (some url)).1.places = s.places ∧
      (addPhoto s id (some url)).1 = s := by
  have hf := (findFirst_none s.places id).mpr h
  simp [addPhoto, hf]

theorem addPhoto_absent_witness :
    (∀ x ∈ sampleState.places, x.ID ≠ "7") ∧
      (addPhoto sampleState "7" (some "t.png")).2.status = 404 ∧
      (addPhoto sampleState "7" (some "t.png")).1.places = sampleState.places ∧
      (addPhoto sampleState "7" (some "t.png")).1 = sampleState :=
  ⟨by decide, addPhoto_absent sampleState "7" "t.png" (by decide)⟩


theorem digitChar_isDigit : ∀ k, k < 10 →
    (Nat.digitChar k).isDigit = true ∧ (Nat.digitChar k).toNat - 48 = k := by
  decide

theorem parseUintLoop_toDigitsCore (fuel : Nat) : ∀ (n : Nat) (ds : List Char),
    n < fuel → n ≤ maxUint64 →
    parseUintLoop (Nat.toDigitsCore 10 fuel n ds) 0 = parseUintLoop ds n := by
  induction fuel with
  | zero => intro n ds h; omega
  | succ fuel ih =>
    intro n ds hfuel hmax
    have hd := digitChar_isDigit (n % 10) (Nat.mod_lt _ (by decide))
    have hmax2 : n ≤ 18446744073709551615 := by simpa [maxUint64] using hmax
    by_cases h0 : n / 10 = 0
    · have hlt : n < 10 := by omega
      have hmod : n % 10 = n := Nat.mod_eq_of_lt hlt
      simp only [Nat.toDigitsCore, h0, if_true]
      rw [hmod] at hd ⊢
      simp [parseUintLoop, hd.1, hd.2, maxUint64]
      omega
    · simp only [Nat.toDigitsCore, h0, if_false]
      rw [ih (n / 10) _ (by omega) (by simp only [maxUint64]; omega)]
      have hcut : ¬ (n / 10 ≥ maxUint64 / 10 + 1) := by simp only [maxUint64]; omega
      have hsum : n / 10 * 10 + n % 10 = n := by omega
      simp only [parseUintLoop, hd.1, hd.2, if_true, hcut, if_false, hsum]
      have : ¬ (n > maxUint64) := by omega
      simp [this]


theorem toDigitsCore_head (fuel : Nat) : ∀ (n : Nat) (ds : List Char),
    ∃ k rest, k < 10 ∧ Nat.toDigitsCore 10 (fuel + 1) n ds = Nat.digitChar k :: rest := by
  induction fuel with
  | zero =>
    intro n ds
    refine ⟨n % 10, ds, Nat.mod_lt _ (by decide), ?_⟩
    by_cases h0 : n / 10 = 0 <;> simp [Nat.toDigitsCore, h0]
  | succ fuel ih =>
    intro n ds
    by_cases h0 : n / 10 = 0
    · exact ⟨n % 10, ds, Nat.mod_lt _ (by decide), by simp [Nat.toDigitsCore, h0]⟩
    · obtain ⟨k, rest, hk, hrest⟩ := ih (n / 10) (Nat.digitChar (n % 10) :: ds)
      refine ⟨k, rest, hk, ?_⟩
      rw [← hrest]
      conv_lhs => unfold Nat.toDigitsCore
      simp [h0]

theorem digitChar_not_sign : ∀ k, k < 10 →
    (Nat.digitChar k == '+') = false ∧ (Nat.digitChar k == '-') = false := by
  decide

theorem parseUint_toDigits (m : Nat) (h : m ≤ maxUint64) :
    ∃ k rest, k < 10 ∧ Nat.toDigits 10 m = Nat.digitChar k :: rest ∧
      parseUint (Nat.digitChar k :: rest) = .ok m := by
  obtain ⟨k, rest, hk, hrest⟩ := toDigitsCore_head m m []
  have hloop := parseUintLoop_toDigitsCore (m + 1) m [] (by omega) h
  rw [hrest] at hloop
  have hok : parseUintLoop [] m = .ok m := rfl
  exact ⟨k, rest, hk, hrest, by simp only [parseUint]; rw [hloop, hok]⟩

theorem parseInt_toDigits (m : Nat) (h : m < 2 ^ 63) :
    parseInt (Nat.toDigits 10 m) = (m : Int) := by
  obtain ⟨k, rest, hk, hrest, hparse⟩ := parseUint_toDigits m (by simp only [maxUint64]; omega)
  have hsign := digitChar_not_sign k hk
  have hlt : ¬ (9223372036854775808 ≤ m) := by omega
  rw [hrest]
  simp [parseInt, hsign.1, hsign.2, hparse, hlt]

theorem parseInt_neg_toDigits (m : Nat) (h : m ≤ 2 ^ 63) :
    parseInt ('-' :: Nat.toDigits 10 m) = -(m : Int) := by
  obtain ⟨k, rest, hk, hrest, hparse⟩ := parseUint_toDigits m (by simp only [maxUint64]; omega)
  have hlt : ¬ (9223372036854775808 < m) := by omega
  rw [hrest]
  simp [parseInt, hparse, hlt]

/-- Reading back what `Itoa` printed gives the number, for every value of
`int`. -/
theorem Atoi_Itoa (n : Int) (hlo : minInt ≤ n) (hhi : n ≤ maxInt) : Atoi (Itoa n) = n := by
  simp only [minInt, maxInt] at hlo hhi
  by_cases hneg : n < 0
  · simp only [Atoi, Itoa, hneg, if_true]
    rw [parseInt_neg_toDigits n.natAbs (by omega)]
    omega
  · simp only [Atoi, Itoa, hneg, if_false]
    rw [parseInt_toDigits n.toNat (by omega)]
    omega


/-! ## The counter -/

theorem parseInt_range (cs : List Char) : minInt ≤ parseInt cs ∧ parseInt cs ≤ maxInt := by
  unfold parseInt
  split
  · simp [minInt, maxInt]
  · rename_i c rest
    simp only
    split
    · simp [minInt, maxInt]
    · split <;> simp [minInt, maxInt]
    · rename_i un _
      by_cases hneg : (c == '-') = true
      · simp [hneg, minInt, maxInt]
        split <;> omega
      · simp [hneg, minInt, maxInt]
        split <;> omega

theorem Atoi_range (s : String) : minInt ≤ Atoi s ∧ Atoi s ≤ maxInt := parseInt_range s.data


theorem foldl_lastID_bounds {F : Type} (ps : List (Place F)) : ∀ (init : Int),
    init ≤ maxInt →
    init ≤ ps.foldl (fun last p => if Atoi p.ID > last then Atoi p.ID else last) init ∧
      ps.foldl (fun last p => if Atoi p.ID > last then Atoi p.ID else last) init ≤ maxInt ∧
      ∀ x ∈ ps, Atoi x.ID ≤
        ps.foldl (fun last p => if Atoi p.ID > last then Atoi p.ID else last) init := by
  induction ps with
  | nil => intro init h; simp [h]
  | cons p rest ih =>
    intro init h
    have hr := (Atoi_range p.ID).2
    simp only [List.foldl_cons, List.mem_cons, forall_eq_or_imp]
    by_cases hgt : Atoi p.ID > init
    · simp only [hgt, if_true]
      obtain ⟨h1, h2, h3⟩ := ih (Atoi p.ID) hr
      exact ⟨by omega, h2, h1, h3⟩
    · simp only [hgt, if_false]
      obtain ⟨h1, h2, h3⟩ := ih init h
      exact ⟨h1, h2, by omega, h3⟩

/-- After `loadPlaces` the counter lies in `0 .. maxInt` and no loaded ID reads
as a larger number. -/
theorem loadPlaces_bounds {F : Type} (file : Option (List (Place F))) :
    0 ≤ (loadPlaces file).lastID ∧ (loadPlaces file).lastID ≤ maxInt ∧
      ∀ x ∈ (loadPlaces file).places, Atoi x.ID ≤ (loadPlaces file).lastID := by
  cases file with
  | none => simp [loadPlaces, maxInt]
  | some ps => exact foldl_lastID_bounds ps 0 (by simp [maxInt])

theorem mem_replaced {F : Type} (pre post : List (Place F)) (p q x : Place F)
    (hq : q.ID = p.ID) (hx : x ∈ pre ++ q :: post) : ∃ y ∈ pre ++ p :: post, y.ID = x.ID := by
  simp only [List.mem_append, List.mem_cons] at hx
  rcases hx with hx | rfl | hx
  · exact ⟨x, by simp [hx], rfl⟩
  · exact ⟨p, by simp, hq.symm⟩
  · exact ⟨x, by simp [hx], rfl⟩

theorem mem_erased {F : Type} [Finiteness F] (pre post : List (Place F)) (p x : Place F)
    (hx : x ∈ pre ++ post) : ∃ y ∈ pre ++ p :: post, y.ID = x.ID := by
  simp only [List.mem_append] at hx
  rcases hx with hx | hx
  · exact ⟨x, by simp [hx], rfl⟩
  · exact ⟨x, by simp [hx], rfl⟩

/-- Every handler other than `addPlace` leaves the counter alone and puts no
new ID into the collection. -/
theorem handle_keeps_ids {F : Type} [Add F] [Div F] [OfNat F 2] [Finiteness F] (s : State F) (r : Request F)
    (hr : ∀ q, r ≠ .addPlace q) :
    (handle s r).1.lastID = s.lastID ∧
      ∀ x ∈ (handle s r).1.places, ∃ y ∈ s.places, y.ID = x.ID := by
  have hsame : ∀ x ∈ s.places, ∃ y ∈ s.places, y.ID = x.ID := fun x hx => ⟨x, hx, rfl⟩
  cases r with
  | getPlaces => exact ⟨rfl, hsame⟩
  | getPlaceByID id =>
    simp only [handle, getPlaceByID]
    split <;> exact ⟨rfl, hsame⟩
  | addPlace q => exact absurd rfl (hr q)
  | updatePlace id q =>
    cases hf : findFirst s.places id with
    | none => simpa [handle, updatePlace, hf] using hsame
    | some ip =>
      obtain ⟨i, p⟩ := ip
      obtain ⟨pre, post, hps, hlen, -, -⟩ := findFirst_some s.places id i p hf
      subst hlen
      simp only [handle, updatePlace, hf, savePlaces]
      refine ⟨trivial, ?_⟩
      rw [hps, set_length_append]
      exact fun x hx => mem_replaced pre post p _ x (by rfl) hx
  | deletePlace id =>
    cases hf : findFirst s.places id with
    | none => simpa [handle, deletePlace, hf] using hsame
    | some ip =>
      obtain ⟨i, p⟩ := ip
      obtain ⟨pre, post, hps, hlen, -, -⟩ := findFirst_some s.places id i p hf
      subst hlen
      simp only [handle, deletePlace, hf, savePlaces]
      refine ⟨trivial, ?_⟩
      rw [hps, eraseIdx_length_append]
      exact fun x hx => mem_erased pre post p x hx
  | addComment id text =>
    cases hf : findFirst s.places id with
    | none => simpa [handle, addComment, hf] using hsame
    | some ip =>
      obtain ⟨i, p⟩ := ip
      obtain ⟨pre, post, hps, hlen, -, -⟩ := findFirst_some s.places id i p hf
      subst hlen
      simp only [handle, addComment, hf, savePlaces]
      refine ⟨trivial, ?_⟩
      rw [hps, modify_length_append]
      exact fun x hx => mem_replaced pre post p _ x (by rfl) hx
  | addRating id value =>
    cases hf : findFirst s.places id with
    | none => simpa [handle, addRating, hf] using hsame
    | some ip =>
      obtain ⟨i, p⟩ := ip
      obtain ⟨pre, post, hps, hlen, -, -⟩ := findFirst_some s.places id i p hf
      subst hlen
      simp only [handle, addRating, hf, savePlaces]
      refine ⟨trivial, ?_⟩
      rw [hps, modify_length_append]
      exact fun x hx => mem_replaced pre post p _ x (by rfl) hx
  | addPhoto id photo =>
    cases photo with
    | none => simpa [handle, addPhoto] using hsame
    | some url =>
      cases hf : findFirst s.places id with
      | none => simpa [handle, addPhoto, hf] using hsame
      | some ip =>
        obtain ⟨i, p⟩ := ip
        obtain ⟨pre, post, hps, hlen, -, -⟩ := findFirst_some s.places id i p hf
        subst hlen
        simp only [handle, addPhoto, hf, savePlaces]
        refine ⟨trivial, ?_⟩
        rw [hps, modify_length_append]
        exact fun x hx => mem_replaced pre post p _ x (by rfl) hx


theorem wrapInt_of_range (x : Int) (hlo : minInt ≤ x) (hhi : x ≤ maxInt) : wrapInt x = x := by
  simp only [minInt, maxInt] at hlo hhi
  simp only [wrapInt]
  omega

theorem countAdds_cons_other {F : Type} [Finiteness F] (r : Request F) (rest : List (Request F))
    (hr : ∀ q, r ≠ .addPlace q) : countAdds (r :: rest) = countAdds rest := by
  cases r <;> simp_all [countAdds]

theorem createdID_other {F : Type} [Finiteness F] (r : Request F) (resp : Response F)
    (hr : ∀ q, r ≠ .addPlace q) : createdID r resp = none := by
  cases r <;> simp_all [createdID]

/-- While the counter does not wrap, a run adds the number of its `addPlace`
calls to the counter, keeps every stored ID at or below the counter, and its
`addPlace` calls return the successive values of the counter. -/
theorem run_invariant {F : Type} [Add F] [Div F] [OfNat F 2] [Finiteness F] (reqs : List (Request F)) :
    ∀ s : State F, minInt ≤ s.lastID → s.lastID + countAdds reqs ≤ maxInt →
      (∀ x ∈ s.places, Atoi x.ID ≤ s.lastID) →
      (run s reqs).1.lastID = s.lastID + countAdds reqs ∧
        (∀ x ∈ (run s reqs).1.places, Atoi x.ID ≤ (run s reqs).1.lastID) ∧
        createdIDs reqs (run s reqs).2 =
          (List.range (countAdds reqs)).map (fun (i : Nat) => Itoa (s.lastID + 1 + (i : Int))) := by
  induction reqs with
  | nil =>
    intro s _ _ hinv
    exact ⟨by simp [run, countAdds], by simpa [run] using hinv, by simp [run, countAdds, createdIDs]⟩
  | cons r rest ih =>
    intro s hlo hhi hinv
    by_cases hadd : ∃ q, r = .addPlace q
    · obtain ⟨q, rfl⟩ := hadd
      simp only [countAdds, Nat.cast_add, Nat.cast_one] at hhi
      have hw : wrapInt (s.lastID + 1) = s.lastID + 1 :=
        wrapInt_of_range _ (by omega) (by omega)
      have hround : Atoi (Itoa (s.lastID + 1)) = s.lastID + 1 :=
        Atoi_Itoa _ (by omega) (by omega)
      have hl1 : (addPlace s q).1.lastID = s.lastID + 1 := by simp [addPlace, savePlaces, hw]
      have hinv1 : ∀ x ∈ (addPlace s q).1.places, Atoi x.ID ≤ (addPlace s q).1.lastID := by
        intro x hx
        rw [hl1]
        simp only [addPlace, savePlaces, hw, List.mem_append, List.mem_singleton] at hx
        rcases hx with hx | rfl
        · have := hinv x hx
          omega
        · simp [hround]
      obtain ⟨h1, h2, h3⟩ := ih (addPlace s q).1 (by rw [hl1]; omega) (by rw [hl1]; omega) hinv1
      simp only [run, handle, countAdds]
      refine ⟨by rw [h1, hl1]; push_cast; omega, h2, ?_⟩
      have hid : createdID (Request.addPlace q) (addPlace s q).2 = some (Itoa (s.lastID + 1)) := by
        simp [createdID, addPlace, hw]
      simp only [createdIDs, List.zip_cons_cons, List.filterMap_cons, hid]
      rw [List.range_succ_eq_map, List.map_cons, List.map_map]
      simp only [createdIDs] at h3
      rw [h3, hl1]
      simp only [Nat.cast_zero, add_zero, List.cons.injEq, true_and]
      apply List.map_congr_left
      intro i _
      simp only [Function.comp, Nat.succ_eq_add_one, Nat.cast_add, Nat.cast_one]
      congr 1
      omega
    · have hr : ∀ q, r ≠ .addPlace q := fun q hq => hadd ⟨q, hq⟩
      obtain ⟨hl1, hids⟩ := handle_keeps_ids s r hr
      have hinv1 : ∀ x ∈ (handle s r).1.places, Atoi x.ID ≤ (handle s r).1.lastID := by
        intro x hx
        obtain ⟨y, hy, hxy⟩ := hids x hx
        rw [hl1, ← hxy]
        exact hinv y hy
      rw [countAdds_cons_other r rest hr] at hhi ⊢
      obtain ⟨h1, h2, h3⟩ := ih (handle s r).1 (by rw [hl1]; exact hlo) (by rw [hl1]; exact hhi)
        hinv1
      simp only [run]
      refine ⟨by rw [h1, hl1], h2, ?_⟩
      simp only [createdIDs, List.zip_cons_cons, List.filterMap_cons,
        createdID_other r _ hr]
      simp only [createdIDs] at h3
      rw [h3, hl1]


/-! ## Creating -/

/-- C1 (amended): after `loadPlaces` on any file and any sequence of handler
calls, as long as the counter set at startup plus the number of `addPlace`
calls made so far is below `2^63 - 1`, `addPlace` answers 201 with a place
whose ID differs from every ID in the collection and reads, as an integer,
strictly above every ID loaded at startup and every ID that an earlier
`addPlace` call returned. -/
theorem addPlace_fresh {F : Type} [Add F] [Div F] [OfNat F 2] [Finiteness F] (file : Option (List (Place F)))
    (reqs : List (Request F)) (q : Place F)
    (hbound : (loadPlaces file).lastID + countAdds reqs < maxInt) :
    (addPlace (run (loadPlaces file) reqs).1 q).2.status = 201 ∧
      ∃ p, (addPlace (run (loadPlaces file) reqs).1 q).2.body = .place p ∧
        (∀ x ∈ (run (loadPlaces file) reqs).1.places, x.ID ≠ p.ID) ∧
        (∀ x ∈ (loadPlaces file).places, Atoi x.ID < Atoi p.ID) ∧
        (∀ y ∈ createdIDs reqs (run (loadPlaces file) reqs).2, Atoi y < Atoi p.ID) := by
  obtain ⟨h0, hmax, hinv0⟩ := loadPlaces_bounds file
  simp only [maxInt] at hbound hmax
  have hmin : minInt ≤ (loadPlaces file).lastID := by simp only [minInt]; omega
  obtain ⟨hl, hinv, hids⟩ := run_invariant reqs (loadPlaces file) hmin
    (by simp only [maxInt]; omega) hinv0
  have hmin' : minInt ≤ (run (loadPlaces file) reqs).1.lastID + 1 := by
    simp only [minInt]; omega
  have hmax' : (run (loadPlaces file) reqs).1.lastID + 1 ≤ maxInt := by
    simp only [maxInt]; omega
  have hw := wrapInt_of_range _ hmin' hmax'
  have hround := Atoi_Itoa _ hmin' hmax'
  refine ⟨rfl, { q with ID := Itoa ((run (loadPlaces file) reqs).1.lastID + 1) }, ?_, ?_, ?_, ?_⟩
  · simp [addPlace, hw]
  · intro x hx heq
    have hle := hinv x hx
    rw [heq] at hle
    simp only [hround] at hle
    omega
  · intro x hx
    have hle := hinv0 x hx
    rw [hround]
    omega
  · intro y hy
    rw [hids] at hy
    obtain ⟨i, hi, rfl⟩ := List.mem_map.mp hy
    have hi' : i < countAdds reqs := List.mem_range.mp hi
    rw [Atoi_Itoa _ (by simp only [minInt]; omega) (by simp only [maxInt]; omega), hround]
    omega

theorem addPlace_fresh_witness :
    (loadPlaces (some [karakhan, tekturmas, karakhanCopy])).lastID + countAdds sampleCalls
        < maxInt ∧
      (addPlace (run (loadPlaces (some [karakhan, tekturmas, karakhanCopy])) sampleCalls).1
          aishaBibi).2.status = 201 ∧
      ∃ p, (addPlace (run (loadPlaces (some [karakhan, tekturmas, karakhanCopy])) sampleCalls).1
          aishaBibi).2.body = .place p ∧
        (∀ x ∈ (run (loadPlaces (some [karakhan, tekturmas, karakhanCopy])) sampleCalls).1.places,
          x.ID ≠ p.ID) ∧
        (∀ x ∈ (loadPlaces (some [karakhan, tekturmas, karakhanCopy])).places,
          Atoi x.ID < Atoi p.ID) ∧
        (∀ y ∈ createdIDs sampleCalls
            (run (loadPlaces (some [karakhan, tekturmas, karakhanCopy])) sampleCalls).2,
          Atoi y < Atoi p.ID) :=
  ⟨by decide, addPlace_fresh (some [karakhan, tekturmas, karakhanCopy]) sampleCalls aishaBibi
    (by decide)⟩

/-- C1 as stated fails: a file whose only record has ID `9223372036854775807`
sets the counter to the largest `int`; the first `addPlace` wraps it and
returns `-9223372036854775808`, which does not read above the loaded ID. -/
theorem addPlace_after_maxInt :
    (addPlace (run (loadPlaces (some [lastPlace])) []).1 aishaBibi).2 =
        ⟨201, .place { aishaBibi with ID := "-9223372036854775808" }⟩ ∧
      lastPlace ∈ (loadPlaces (some [lastPlace])).places ∧
      ¬ (Atoi lastPlace.ID < Atoi "-9223372036854775808") := by
  decide


theorem run_append {F : Type} [Add F] [Div F] [OfNat F 2] [Finiteness F] (a b : List (Request F)) :
    ∀ s : State F, run s (a ++ b) =
      ((run (run s a).1 b).1, (run s a).2 ++ (run (run s a).1 b).2) := by
  induction a with
  | nil => intro s; simp [run]
  | cons r rest ih => intro s; simp [run, ih]

theorem countAdds_append {F : Type} (a b : List (Request F)) :
    countAdds (a ++ b) = countAdds a + countAdds b := by
  induction a with
  | nil => simp [countAdds]
  | cons r rest ih => cases r <;> simp [countAdds, ih]; omega

theorem countAdds_replicate {F : Type} [Finiteness F] (n : Nat) (q : Place F) :
    countAdds (List.replicate n (Request.addPlace q)) = n := by
  induction n with
  | zero => rfl
  | succ n ih => simp [List.replicate_succ, countAdds, ih]

theorem Itoa_natCast (k : Nat) : Itoa (k : Int) = Nat.repr k := by
  have h : ¬ ((k : Int) < 0) := by omega
  simp [Itoa, h, Nat.repr, List.asString]

/-- C2 (amended): from the empty store, in every sequence of handler calls
with at most `2^63 - 1` calls to `addPlace`, the k-th `addPlace` returns the
decimal string of `k`, whatever other calls are interleaved; the counter
equals the number of `addPlace` calls made, so each call of the sequence adds
`1` to it when it is an `addPlace` and nothing otherwise. -/
theorem addPlace_counts_from_empty {F : Type} [Add F] [Div F] [OfNat F 2] [Finiteness F]
    (reqs : List (Request F)) (hbound : countAdds reqs ≤ 2 ^ 63 - 1) :
    createdIDs reqs (run emptyStore reqs).2 =
        (List.range (countAdds reqs)).map (fun k => Nat.repr (k + 1)) ∧
      (run emptyStore reqs).1.lastID = countAdds reqs ∧
      ∀ (before : List (Request F)) (r : Request F) (after : List (Request F)),
        reqs = before ++ r :: after →
        (run emptyStore (before ++ [r])).1.lastID =
          (run emptyStore before).1.lastID + countAdds [r] := by
  have hempty : ∀ x ∈ (emptyStore : State F).places, Atoi x.ID ≤ (emptyStore : State F).lastID := by
    simp [emptyStore]
  have hmin : minInt ≤ (emptyStore : State F).lastID := by simp [emptyStore, minInt]
  have key : ∀ l : List (Request F), countAdds l ≤ 2 ^ 63 - 1 →
      (run emptyStore l).1.lastID = countAdds l ∧
        createdIDs l (run emptyStore l).2 =
          (List.range (countAdds l)).map (fun k => Nat.repr (k + 1)) := by
    intro l hl
    obtain ⟨h1, -, h3⟩ := run_invariant l (emptyStore : State F) hmin
      (by simp only [emptyStore, maxInt]; omega) hempty
    refine ⟨by simpa [emptyStore] using h1, ?_⟩
    rw [h3]
    apply List.map_congr_left
    intro k _
    rw [← Itoa_natCast]
    simp only [emptyStore, Nat.cast_add, Nat.cast_one]
    congr 1
    omega
  refine ⟨(key reqs hbound).2, (key reqs hbound).1, ?_⟩
  intro before r after hreqs
  have hcount : countAdds reqs = countAdds before + countAdds [r] + countAdds after := by
    rw [hreqs, countAdds_append, show r :: after = [r] ++ after from rfl, countAdds_append]
    omega
  rw [(key (before ++ [r]) (by rw [countAdds_append]; omega)).1,
    (key before (by omega)).1, countAdds_append]
  push_cast
  rfl

theorem addPlace_counts_from_empty_witness :
    countAdds scenarioCalls ≤ 2 ^ 63 - 1 ∧
      (run emptyStore scenarioCalls).2 =
        [⟨201, .place { aishaBibi with ID := "1" }⟩, ⟨201, .place { tekturmas with ID := "2" }⟩,
          ⟨200, .empty⟩, ⟨201, .place { karakhan with ID := "3" }⟩] ∧
      createdIDs scenarioCalls (run emptyStore scenarioCalls).2 = ["1", "2", "3"] ∧
      (run emptyStore scenarioCalls).1.lastID = 3 ∧
      (run emptyStore ([.addPlace aishaBibi, .addPlace tekturmas] ++ [.deletePlace "1"])).1.lastID =
        (run emptyStore [.addPlace aishaBibi, .addPlace tekturmas]).1.lastID +
          countAdds [(.deletePlace "1" : Request ℚ)] := by
  have h := addPlace_counts_from_empty scenarioCalls (by decide)
  refine ⟨by decide, by decide, ?_, ?_, ?_⟩
  · rw [h.1]; decide
  · rw [h.2.1]; decide
  · exact h.2.2 [.addPlace aishaBibi, .addPlace tekturmas] (.deletePlace "1")
      [.addPlace karakhan] rfl

theorem countAdds_churn (q : Place ℚ) (n : Nat) : ∀ done, countAdds (churn q done n) = n := by
  induction n with
  | zero => intro done; rfl
  | succ n ih => intro done; simp [churn, countAdds, ih]

/-- Rounds of creating and deleting leave the collection empty and the
counter at the number of creations, as long as the counter does not wrap. -/
theorem run_churn (q : Place ℚ) (n : Nat) : ∀ (done : Nat) (s : State ℚ),
    s.places = [] → s.lastID = done → done + n ≤ 2 ^ 63 - 1 →
    (run s (churn q done n)).1.places = [] ∧
      (run s (churn q done n)).1.lastID = ((done + n : Nat) : Int) := by
  induction n with
  | zero => intro done s hp hl _; simp [churn, run, hp, hl]
  | succ n ih =>
    intro done s hp hl hbound
    have hw : wrapInt (s.lastID + 1) = ((done + 1 : Nat) : Int) := by
      rw [wrapInt_of_range _ (by simp only [minInt]; omega) (by simp only [maxInt]; omega), hl]
      push_cast
      rfl
    have hfind : findFirst [{ q with ID := Nat.repr (done + 1) }] (Nat.repr (done + 1)) =
        some (0, { q with ID := Nat.repr (done + 1) }) := by
      simp [findFirst]
    have hp1 : (addPlace s q).1.places = [{ q with ID := Nat.repr (done + 1) }] := by
      simp only [addPlace, savePlaces, hp, hw, Itoa_natCast, List.nil_append]
    have hl1 : (addPlace s q).1.lastID = ((done + 1 : Nat) : Int) := by
      simp only [addPlace, savePlaces, hw]
    have hp2 : (deletePlace (addPlace s q).1 (Nat.repr (done + 1))).1.places = [] := by
      simp only [deletePlace, hp1, hfind, savePlaces]
      rfl
    have hl2 : (deletePlace (addPlace s q).1 (Nat.repr (done + 1))).1.lastID =
        ((done + 1 : Nat) : Int) := by
      simp only [deletePlace, hp1, hfind, savePlaces, hl1]
    have hstate := ih (done + 1)
      (handle (handle s (.addPlace q)).1 (.deletePlace (Nat.repr (done + 1)))).1
      hp2 hl2 (by omega)
    simp only [churn, run]
    refine ⟨hstate.1, ?_⟩
    rw [hstate.2]
    congr 1
    omega

/-- C2 as stated fails: from the empty store, `2^63 - 1` rounds of creating a
place and deleting it again leave the collection empty and the counter at
`2^63 - 1`; the next `addPlace`, the `2^63`-th, wraps the counter to `-2^63`
and returns `-9223372036854775808`, not the decimal string of `2^63`. -/
theorem addPlace_wraps_after_churn :
    (run emptyStore (churn aishaBibi 0 (2 ^ 63 - 1))).1.places = [] ∧
      (run emptyStore (churn aishaBibi 0 (2 ^ 63 - 1))).1.lastID = 9223372036854775807 ∧
      countAdds (churn aishaBibi 0 (2 ^ 63 - 1) ++ [Request.addPlace aishaBibi]) = 2 ^ 63 ∧
      (run emptyStore (churn aishaBibi 0 (2 ^ 63 - 1) ++ [Request.addPlace aishaBibi])).2.getLast?
        = some ⟨201, .place { aishaBibi with ID := "-9223372036854775808" }⟩ ∧
      (run emptyStore (churn aishaBibi 0 (2 ^ 63 - 1) ++ [Request.addPlace aishaBibi])).1.lastID
        = minInt ∧
      "-9223372036854775808" ≠ Nat.repr (2 ^ 63) := by
  have hstep : ∀ s : State ℚ, s.lastID = 9223372036854775807 →
      (addPlace s aishaBibi).1.lastID = minInt ∧
        (addPlace s aishaBibi).2 =
          ⟨201, .place { aishaBibi with ID := "-9223372036854775808" }⟩ := by
    intro s hs
    simp only [addPlace, savePlaces, hs]
    exact ⟨by decide, by decide⟩
  have hrun : ∀ n : Nat, n = 2 ^ 63 - 1 →
      (run emptyStore (churn aishaBibi 0 n)).1.places = [] ∧
        (run emptyStore (churn aishaBibi 0 n)).1.lastID = 9223372036854775807 ∧
        countAdds (churn aishaBibi 0 n ++ [Request.addPlace aishaBibi]) = 2 ^ 63 ∧
        (run emptyStore (churn aishaBibi 0 n ++ [Request.addPlace aishaBibi])).2.getLast? =
          some ⟨201, .place { aishaBibi with ID := "-9223372036854775808" }⟩ ∧
        (run emptyStore (churn aishaBibi 0 n ++ [Request.addPlace aishaBibi])).1.lastID
          = minInt := by
    intro n hn
    have h := run_churn aishaBibi n 0 emptyStore rfl rfl (by omega)
    have hlast : (run emptyStore (churn aishaBibi 0 n)).1.lastID = 9223372036854775807 := by
      rw [h.2, hn]
      decide
    have hs := hstep _ hlast
    refine ⟨h.1, hlast, ?_, ?_, ?_⟩
    · rw [countAdds_append, countAdds_churn, hn]
      rfl
    · rw [run_append]
      simp only [run, handle, List.getLast?_concat, hs.2]
    · rw [run_append]
      simp only [run, handle, hs.1]
  obtain ⟨h1, h2, h3, h4, h5⟩ := hrun (2 ^ 63 - 1) rfl
  exact ⟨h1, h2, h3, h4, h5, by decide⟩

/-! ## The photo route -/

/-- C10 fails on the code: `main` registers no route for `addPhoto`.  On a
store that holds a place with ID `1`, `POST /places/1/photo` with body
`{"url":"k2.png"}` is answered by the router with 404 and the store is left
as it was, where `addPhoto` itself would answer 200 and append the URL; with
a malformed body the answer is 404 as well, where `addPhoto` would answer
400. -/
theorem photo_route_not_registered :
    Handler.addPhoto ∉ routes.map Route.handler ∧
      serve sampleState ⟨"POST", "/places/1/photo", photoBody⟩ =
        some (sampleState, ⟨404, .text "404 page not found\n"⟩) ∧
      (addPhoto sampleState "1" (some "k2.png")).2.status = 200 ∧
      (addPhoto sampleState "1" (some "k2.png")).1.places =
        [{ karakhan with PhotoURLs := ["k.png", "k2.png"] }, tekturmas, karakhanCopy] ∧
      serve sampleState ⟨"POST", "/places/1/photo", malformedBody⟩ =
        some (sampleState, ⟨404, .text "404 page not found\n"⟩) ∧
      (addPhoto sampleState "1" none).2.status = 400 := by
  decide

/-! ## Reading one place -/

theorem Double.halved_sum_overflows :
    (Double.finite Double.maxFloat64 + Double.finite Double.maxFloat64) / 2 = Double.posInf := by
  show Double.div (Double.add _ _) (Double.finite _) = _
  have h : Double.overflowAt ≤ Double.maxFloat64 + Double.maxFloat64 := by
    norm_num [Double.overflowAt, Double.maxFloat64]
  simp [Double.add, Double.ofRat, h, Double.div]

theorem addRating_places {F : Type} [Add F] [Div F] [OfNat F 2] [Finiteness F] (s : State F) (id : String)
    (v : F) (pre : List (Place F)) (p : Place F) (post : List (Place F))
    (hps : s.places = pre ++ p :: post) (hall : ∀ x ∈ pre, x.ID ≠ id) (hid : p.ID = id) :
    (addRating s id v).1.places = pre ++ { p with Rating := (p.Rating + v) / 2 } :: post := by
  have hf : findFirst s.places id = some (pre.length, p) := by
    rw [hps]; exact findFirst_append pre p post id hall hid
  simp only [addRating, hf, savePlaces]
  rw [hps, modify_length_append]

/-- The two requests behind `overflowedState` leave one record, whose rating
is `+Inf`. -/
theorem overflowedState_places :
    overflowedState.places = [{ peak with ID := "1", Rating := .posInf }] := by
  have hid : Itoa (wrapInt (0 + 1)) = "1" := by decide
  have h1 : (addPlace emptyStore peak).1.places = [{ peak with ID := "1" }] := by
    simp only [addPlace, savePlaces, emptyStore, List.nil_append, hid]
  have h := addRating_places (addPlace emptyStore peak).1 "1" (.finite Double.maxFloat64) []
    { peak with ID := "1" } [] h1 (by simp) rfl
  rw [overflowedState, h]
  simp [peak, Double.halved_sum_overflows]

/-- C11 (amended): `getPlaceByID` answers 200 when some record has ID `id`,
and then sends the first such record, in storage order, provided its numbers
are finite (the body is empty when they are not); it answers 404 with an
empty body exactly when no record has that ID; either way the collection,
the counter and the file are left as they were. -/
theorem getPlaceByID_first {F : Type} [Finiteness F] (s : State F) (id : String) :
    (getPlaceByID s id).1 = s ∧
      (∀ pre p post, s.places = pre ++ p :: post → (∀ x ∈ pre, x.ID ≠ id) → p.ID = id →
        (getPlaceByID s id).2.status = 200 ∧
          (p.encodable = true → (getPlaceByID s id).2 = ⟨200, .place p⟩) ∧
          (p.encodable = false → (getPlaceByID s id).2 = ⟨200, .empty⟩)) ∧
      ((getPlaceByID s id).2 = ⟨404, .empty⟩ ↔ ∀ x ∈ s.places, x.ID ≠ id) ∧
      ((getPlaceByID s id).2.status = 404 ↔ ∀ x ∈ s.places, x.ID ≠ id) := by
  refine ⟨?_, ?_, ?_, ?_⟩
  · simp only [getPlaceByID]
    split <;> rfl
  · intro pre p post hps hall hid
    have hf : findFirst s.places id = some (pre.length, p) := by
      rw [hps]; exact findFirst_append pre p post id hall hid
    refine ⟨by simp [getPlaceByID, hf], ?_, ?_⟩
    · intro henc
      simp [getPlaceByID, hf, encode, henc]
    · intro henc
      simp [getPlaceByID, hf, encode, henc]
  · rw [← findFirst_none]
    cases hf : findFirst s.places id <;> simp [getPlaceByID, hf]
  · rw [← findFirst_none]
    cases hf : findFirst s.places id <;> simp [getPlaceByID, hf]

theorem getPlaceByID_first_witness :
    (getPlaceByID sampleState "1").1 = sampleState ∧
      (getPlaceByID sampleState "1").2.status = 200 ∧
      (getPlaceByID sampleState "1").2 = ⟨200, .place karakhan⟩ ∧
      (getPlaceByID overflowedState "1").2 = ⟨200, .empty⟩ ∧
      (getPlaceByID sampleState "7").2 = ⟨404, .empty⟩ ∧
      (getPlaceByID sampleState "7").2.status = 404 :=
  ⟨(getPlaceByID_first sampleState "1").1,
    ((getPlaceByID_first sampleState "1").2.1 [] karakhan [tekturmas, karakhanCopy] rfl
      (by decide) rfl).1,
    ((getPlaceByID_first sampleState "1").2.1 [] karakhan [tekturmas, karakhanCopy] rfl
      (by decide) rfl).2.1 (by decide),
    ((getPlaceByID_first overflowedState "1").2.1 [] { peak with ID := "1", Rating := .posInf }
      [] overflowedState_places (by simp) rfl).2.2 rfl,
    (getPlaceByID_first sampleState "7").2.2.1.mpr (by decide),
    (getPlaceByID_first sampleState "7").2.2.2.mpr (by decide)⟩

/-- C11 as stated fails: after `POST /places` with rating
`1.7976931348623157e308` and `POST /places/1/rating` with the same value, the
stored rating is `+Inf`; a record with ID `1` exists, and `getPlaceByID`
answers 200 with an empty body instead of the record. -/
theorem getPlaceByID_after_overflow :
    overflowedState.places = [{ peak with ID := "1", Rating := .posInf }] ∧
      (getPlaceByID overflowedState "1").2 = ⟨200, .empty⟩ ∧
      (getPlaceByID overflowedState "1").2 ≠
        ⟨200, .place { peak with ID := "1", Rating := .posInf }⟩ := by
  have h : (getPlaceByID overflowedState "1").2 = ⟨200, .empty⟩ := by
    simp only [getPlaceByID]
    rw [overflowedState_places]
    simp [findFirst, encode, Place.encodable, Finiteness.isFinite]
  refine ⟨overflowedState_places, h, ?_⟩
  rw [h]
  simp

/-! ## Bodies that do not decode -/

/-- C14: when the body does not decode, `addPhoto` answers 400 whether or not
a record has the ID, writes nothing to the file and leaves the state as it
was.  It is the only handler whose status depends on the body: the status of
`addPlace`, `updatePlace`, `addComment` and `addRating` is the same for any
two bodies, `getPlaces`, `getPlaceByID` and `deletePlace` read none, and
`addPhoto` never answers 400 to a body that decodes. -/
theorem addPhoto_bad_body {F : Type} [Add F] [Div F] [OfNat F 2] [Finiteness F] (s : State F) (id : String) :
    (addPhoto s id none).2.status = 400 ∧ (addPhoto s id none).1.writes = s.writes ∧
      (addPhoto s id none).1.places = s.places ∧ (addPhoto s id none).1 = s ∧
      (∀ url, (addPhoto s id (some url)).2.status ≠ 400) ∧
      (∀ q q', (addPlace s q).2.status = (addPlace s q').2.status) ∧
      (∀ q q', (updatePlace s id q).2.status = (updatePlace s id q').2.status) ∧
      (∀ t t', (addComment s id t).2.status = (addComment s id t').2.status) ∧
      (∀ v v' : F, (addRating s id v).2.status = (addRating s id v').2.status) := by
  refine ⟨rfl, rfl, rfl, rfl, ?_, ?_, ?_, ?_, ?_⟩
  · intro url
    cases hf : findFirst s.places id <;> simp [addPhoto, hf]
  · intro q q'; rfl
  · intro q q'
    cases hf : findFirst s.places id <;> simp [updatePlace, hf]
  · intro t t'
    cases hf : findFirst s.places id <;> simp [addComment, hf]
  · intro v v'
    cases hf : findFirst s.places id <;> simp [addRating, hf]

/-! ## Appending a comment or a photo -/

/-- C16: when some record has ID `id`, `addComment` with text `t` and
`addPhoto` with URL `u` answer 200; in the first record whose ID is `id` the
comments (for `addPhoto`, the photo URLs) become the old sequence followed by
the new element, and every other field of that record, every other record,
the order, the length and the counter stay as they were. -/
theorem append_comment_photo {F : Type} [Finiteness F] (s : State F) (id t u : String)
    (h : ∃ x ∈ s.places, x.ID = id) :
    ∃ pre p post, s.places = pre ++ p :: post ∧ p.ID = id ∧ (∀ x ∈ pre, x.ID ≠ id) ∧
      (addComment s id t).2.status = 200 ∧
      (addComment s id t).1.places = pre ++ { p with Comments := p.Comments ++ [t] } :: post ∧
      (addComment s id t).1.places.length = s.places.length ∧
      (addComment s id t).1.lastID = s.lastID ∧
      (addPhoto s id (some u)).2.status = 200 ∧
      (addPhoto s id (some u)).1.places =
        pre ++ { p with PhotoURLs := p.PhotoURLs ++ [u] } :: post ∧
      (addPhoto s id (some u)).1.places.length = s.places.length ∧
      (addPhoto s id (some u)).1.lastID = s.lastID := by
  obtain ⟨pre, p, post, hps, hid, hall, hf⟩ := findFirst_isSome s.places id h
  have hc : (addComment s id t).1.places =
      pre ++ { p with Comments := p.Comments ++ [t] } :: post := by
    simp only [addComment, hf, savePlaces]
    rw [hps, modify_length_append]
  have hp : (addPhoto s id (some u)).1.places =
      pre ++ { p with PhotoURLs := p.PhotoURLs ++ [u] } :: post := by
    simp only [addPhoto, hf, savePlaces]
    rw [hps, modify_length_append]
  refine ⟨pre, p, post, hps, hid, hall, by simp [addComment, hf], hc, ?_,
    by simp [addComment, hf, savePlaces], by simp [addPhoto, hf], hp, ?_,
    by simp [addPhoto, hf, savePlaces]⟩
  · rw [hc, hps]; simp
  · rw [hp, hps]; simp

theorem append_comment_photo_witness :
    (∃ x ∈ sampleState.places, x.ID = "1") ∧
      ∃ pre p post, sampleState.places = pre ++ p :: post ∧ p.ID = "1" ∧
        (∀ x ∈ pre, x.ID ≠ "1") ∧
        (addComment sampleState "1" "lovely").2.status = 200 ∧
        (addComment sampleState "1" "lovely").1.places =
          pre ++ { p with Comments := p.Comments ++ ["lovely"] } :: post ∧
        (addComment sampleState "1" "lovely").1.places.length = sampleState.places.length ∧
        (addComment sampleState "1" "lovely").1.lastID = sampleState.lastID ∧
        (addPhoto sampleState "1" (some "k2.png")).2.status = 200 ∧
        (addPhoto sampleState "1" (some "k2.png")).1.places =
          pre ++ { p with PhotoURLs := p.PhotoURLs ++ ["k2.png"] } :: post ∧
        (addPhoto sampleState "1" (some "k2.png")).1.places.length =
          sampleState.places.length ∧
        (addPhoto sampleState "1" (some "k2.png")).1.lastID = sampleState.lastID :=
  ⟨⟨karakhan, by decide, rfl⟩,
    append_comment_photo sampleState "1" "lovely" "k2.png" ⟨karakhan, by decide, rfl⟩⟩

theorem addPhoto_bad_body_witness :
    (addPhoto sampleState "1" none).2.status = 400 ∧
      (addPhoto sampleState "1" none).1.writes = sampleState.writes ∧
      (addPhoto sampleState "1" none).1.places = sampleState.places ∧
      (addPhoto sampleState "1" none).1 = sampleState ∧
      (addPhoto sampleState "1" (some "k2.png")).2.status ≠ 400 ∧
      (updatePlace sampleState "1" aishaBibi).2.status =
        (updatePlace sampleState "1" tekturmas).2.status :=
  ⟨(addPhoto_bad_body sampleState "1").1, (addPhoto_bad_body sampleState "1").2.1,
    (addPhoto_bad_body sampleState "1").2.2.1, (addPhoto_bad_body sampleState "1").2.2.2.1,
    (addPhoto_bad_body sampleState "1").2.2.2.2.1 "k2.png",
    (addPhoto_bad_body sampleState "1").2.2.2.2.2.2.1 aishaBibi tekturmas⟩

/-! ## The file -/

theorem any_eq_findFirst {F : Type} (ps : List (Place F)) (id : String) :
    ps.any (fun p => decide (p.ID = id)) = (findFirst ps id).isSome := by
  induction ps with
  | nil => rfl
  | cons p rest ih =>
    by_cases h : p.ID = id
    · simp [findFirst, h]
    · simp only [List.any_cons, h, decide_False, Bool.false_or, ih, findFirst, if_false]
      cases findFirst rest id <;> rfl

/-- A call that is a successful mutation hands the collection, as it stands
when the call returns, to `MarshalIndent` and writes the outcome. -/
theorem handle_writes {F : Type} [Add F] [Div F] [OfNat F 2] [Finiteness F] (s : State F)
    (r : Request F) (hm : mutates s r = true) :
    (handle s r).1.writes = writeFile (marshalIndent (handle s r).1.places) :: s.writes := by
  cases r with
  | getPlaces => simp [mutates] at hm
  | getPlaceByID id => simp [mutates] at hm
  | addPlace q => simp [handle, addPlace, savePlaces]
  | updatePlace id q =>
    simp only [mutates, any_eq_findFirst] at hm
    cases hf : findFirst s.places id with
    | none => simp [hf] at hm
    | some ip => simp [handle, updatePlace, hf, savePlaces]
  | deletePlace id =>
    simp only [mutates, any_eq_findFirst] at hm
    cases hf : findFirst s.places id with
    | none => simp [hf] at hm
    | some ip => simp [handle, deletePlace, hf, savePlaces]
  | addComment id t =>
    simp only [mutates, any_eq_findFirst] at hm
    cases hf : findFirst s.places id with
    | none => simp [hf] at hm
    | some ip => simp [handle, addComment, hf, savePlaces]
  | addRating id v =>
    simp only [mutates, any_eq_findFirst] at hm
    cases hf : findFirst s.places id with
    | none => simp [hf] at hm
    | some ip => simp [handle, addRating, hf, savePlaces]
  | addPhoto id photo =>
    cases photo with
    | none => simp [mutates] at hm
    | some url =>
      simp only [mutates, any_eq_findFirst] at hm
      cases hf : findFirst s.places id with
      | none => simp [hf] at hm
      | some ip => simp [handle, addPhoto, hf, savePlaces]

/-- A call that is not a successful mutation writes nothing. -/
theorem handle_no_write {F : Type} [Add F] [Div F] [OfNat F 2] [Finiteness F] (s : State F)
    (r : Request F) (hm : mutates s r = false) : (handle s r).1.writes = s.writes := by
  cases r with
  | getPlaces => rfl
  | getPlaceByID id =>
    simp only [handle, getPlaceByID]
    split <;> rfl
  | addPlace q => simp [mutates] at hm
  | updatePlace id q =>
    simp only [mutates, any_eq_findFirst] at hm
    cases hf : findFirst s.places id with
    | none => simp [handle, updatePlace, hf]
    | some ip => simp [hf] at hm
  | deletePlace id =>
    simp only [mutates, any_eq_findFirst] at hm
    cases hf : findFirst s.places id with
    | none => simp [handle, deletePlace, hf]
    | some ip => simp [hf] at hm
  | addComment id t =>
    simp only [mutates, any_eq_findFirst] at hm
    cases hf : findFirst s.places id with
    | none => simp [handle, addComment, hf]
    | some ip => simp [hf] at hm
  | addRating id v =>
    simp only [mutates, any_eq_findFirst] at hm
    cases hf : findFirst s.places id with
    | none => simp [handle, addRating, hf]
    | some ip => simp [hf] at hm
  | addPhoto id photo =>
    cases photo with
    | none => rfl
    | some url =>
      simp only [mutates, any_eq_findFirst] at hm
      cases hf : findFirst s.places id with
      | none => simp [handle, addPhoto, hf]
      | some ip => simp [hf] at hm

/-- C12 (amended): with the file kept as the log of what `savePlaces`
writes, a call that is a successful mutation writes once, last, what
`MarshalIndent` makes of the collection as it stands when the call returns;
provided every number in that collection is finite, this is the text of the
collection, and a restart that loads it gets the same collection.  Any other
call, `getPlaces` and `getPlaceByID` among them, writes nothing. -/
theorem file_follows_mutations {F : Type} [Add F] [Div F] [OfNat F 2] [Finiteness F]
    (s : State F) (r : Request F) :
    (mutates s r = true →
        (handle s r).1.writes = writeFile (marshalIndent (handle s r).1.places) :: s.writes ∧
          ((handle s r).1.places.all Place.encodable = true →
            (handle s r).1.writes = .json (handle s r).1.places :: s.writes ∧
              (handle s r).1.writes.head?.map (fun c => (reload c).places) =
                some (handle s r).1.places)) ∧
      (mutates s r = false → (handle s r).1.writes = s.writes) ∧
      (getPlaces s).1.writes = s.writes ∧
      ∀ id, (getPlaceByID s id).1.writes = s.writes := by
  refine ⟨?_, handle_no_write s r, rfl, fun id => handle_no_write s (.getPlaceByID id) rfl⟩
  intro hm
  have hw := handle_writes s r hm
  refine ⟨hw, ?_⟩
  intro hfin
  have hjson : (handle s r).1.writes = .json (handle s r).1.places :: s.writes := by
    rw [hw]
    simp only [marshalIndent, hfin, if_true, writeFile]
  refine ⟨hjson, ?_⟩
  rw [hjson]
  simp [reload, unmarshal, loadPlaces]

theorem file_follows_mutations_witness :
    mutates sampleState (.deletePlace "1") = true ∧
      (handle sampleState (.deletePlace "1")).1.places.all Place.encodable = true ∧
      (handle sampleState (.deletePlace "1")).1.writes = [.json [tekturmas, karakhanCopy]] ∧
      (handle sampleState (.deletePlace "1")).1.writes.head?.map (fun c => (reload c).places) =
        some (handle sampleState (.deletePlace "1")).1.places ∧
      mutates sampleState (.deletePlace "7") = false ∧
      (handle sampleState (.deletePlace "7")).1.writes = sampleState.writes := by
  have h := ((file_follows_mutations sampleState (.deletePlace "1")).1 (by decide)).2
    (by decide)
  refine ⟨by decide, by decide, ?_, h.2, by decide,
    (file_follows_mutations sampleState (.deletePlace "7")).2.1 (by decide)⟩
  rw [h.1]
  decide

/-- C12 as stated fails: after `POST /places` with rating
`1.7976931348623157e308`, the call `POST /places/1/rating` with the same value
succeeds and leaves one record, with rating `+Inf`; `MarshalIndent` refuses
it, so the last write leaves the file without a byte, and a restart loads no
record. -/
theorem write_after_overflow :
    mutates (addPlace emptyStore peak).1 (.addRating "1" (.finite Double.maxFloat64)) = true ∧
      (handle (addPlace emptyStore peak).1 (.addRating "1" (.finite Double.maxFloat64))).1.places
        = [{ peak with ID := "1", Rating := .posInf }] ∧
      (handle (addPlace emptyStore peak).1
        (.addRating "1" (.finite Double.maxFloat64))).1.writes.head? = some .noBytes ∧
      (reload (.noBytes : FileContent Double)).places = [] := by
  have hid : Itoa (wrapInt (0 + 1)) = "1" := by decide
  have h1 : (addPlace emptyStore peak).1.places = [{ peak with ID := "1" }] := by
    simp only [addPlace, savePlaces, emptyStore, List.nil_append, hid]
  have hm : mutates (addPlace emptyStore peak).1
      (.addRating "1" (.finite Double.maxFloat64)) = true := by
    simp [mutates, h1]
  have hp : (handle (addPlace emptyStore peak).1
      (.addRating "1" (.finite Double.maxFloat64))).1.places
        = [{ peak with ID := "1", Rating := .posInf }] := overflowedState_places
  refine ⟨hm, hp, ?_, rfl⟩
  rw [handle_writes _ _ hm, hp]
  simp [marshalIndent, Place.encodable, Finiteness.isFinite, writeFile]

/-! ## The next identifier -/

theorem foldl_lastID_eq_max {F : Type} (ps : List (Place F)) : ∀ init : Int,
    ps.foldl (fun last p => if Atoi p.ID > last then Atoi p.ID else last) init =
      (ps.map (fun p => Atoi p.ID)).foldl max init := by
  induction ps with
  | nil => intro init; rfl
  | cons p rest ih =>
    intro init
    simp only [List.foldl_cons, List.map_cons]
    rw [ih]
    congr 1
    by_cases h : Atoi p.ID > init
    · simp only [h, if_true]; omega
    · simp only [h, if_false]; omega

theorem foldl_max_assoc (xs : List Int) : ∀ a b : Int,
    xs.foldl max (max a b) = max a (xs.foldl max b) := by
  induction xs with
  | nil => intro a b; rfl
  | cons x rest ih =>
    intro a b
    simp only [List.foldl_cons]
    rw [max_assoc, ih]

theorem le_foldl_max (xs : List Int) : ∀ a : Int, a ≤ xs.foldl max a := by
  induction xs with
  | nil => intro a; exact le_refl a
  | cons x rest ih =>
    intro a
    simp only [List.foldl_cons]
    exact le_trans (le_max_left a x) (ih (max a x))

theorem mem_le_foldl_max (xs : List Int) : ∀ (a y : Int), y ∈ xs → y ≤ xs.foldl max a := by
  induction xs with
  | nil => intro a y hy; simp at hy
  | cons x rest ih =>
    intro a y hy
    simp only [List.foldl_cons]
    rcases List.mem_cons.mp hy with rfl | hy
    · exact le_trans (le_max_right a y) (le_foldl_max rest (max a y))
    · exact ih (max a x) y hy

theorem specNextID_pos {F : Type} (ps : List (Place F)) (x : Place F) (hx : x ∈ ps)
    (hx0 : 0 ≤ Atoi x.ID) : 1 ≤ specNextID ps := by
  cases ps with
  | nil => simp at hx
  | cons p rest =>
    simp only [specNextID, List.map_cons]
    have hle : Atoi x.ID ≤ (rest.map (fun p => Atoi p.ID)).foldl max (Atoi p.ID) := by
      rcases List.mem_cons.mp hx with rfl | hx
      · exact le_foldl_max _ _
      · exact mem_le_foldl_max _ _ _ (List.mem_map.mpr ⟨x, hx, rfl⟩)
    omega

theorem foldl_lastID_lt {F : Type} (ps : List (Place F)) : ∀ init : Int, init < maxInt →
    (∀ x ∈ ps, Atoi x.ID < maxInt) →
    ps.foldl (fun last p => if Atoi p.ID > last then Atoi p.ID else last) init < maxInt := by
  induction ps with
  | nil => intro init hi _; simpa using hi
  | cons p rest ih =>
    intro init hi hl
    simp only [List.foldl_cons]
    apply ih
    · by_cases hgt : Atoi p.ID > init
      · simp only [hgt, if_true]; exact hl p (List.mem_cons_self _ _)
      · simp only [hgt, if_false]; exact hi
    · exact fun x hx => hl x (List.mem_cons_of_mem _ hx)

/-- The counter after `loadPlaces` is the larger of `0` and the maximum that
`specNextID` adds one to. -/
theorem loadPlaces_lastID_spec {F : Type} [Finiteness F] (file : Option (List (Place F))) :
    (loadPlaces file).lastID + 1 = max (specNextID (loadPlaces file).places) 1 := by
  cases file with
  | none => simp [loadPlaces, specNextID]
  | some ps =>
    cases ps with
    | nil => simp [loadPlaces, specNextID]
    | cons p rest =>
      simp only [loadPlaces, specNextID, List.map_cons]
      rw [foldl_lastID_eq_max]
      simp only [List.map_cons, List.foldl_cons]
      rw [foldl_max_assoc]
      omega

/-- C13 (amended): after startup on any file, provided no loaded ID parses to
the largest `int`, the identifier that `addPlace` assigns is the larger of
`1` and the value the specification words (one more than the maximum parsed
ID, non-numeric IDs counting as `0`); it is `1` for the empty collection and
equals the specification's value as soon as some ID parses to a number
that is not negative. -/
theorem nextID_after_load {F : Type} [Finiteness F] (file : Option (List (Place F))) (q : Place F)
    (h : ∀ x ∈ (loadPlaces file).places, Atoi x.ID < maxInt) :
    (addPlace (loadPlaces file) q).1.lastID = max (specNextID (loadPlaces file).places) 1 ∧
      (addPlace (loadPlaces file) q).2 =
        ⟨201, .place { q with ID := Itoa (max (specNextID (loadPlaces file).places) 1) }⟩ ∧
      ((loadPlaces file).places = [] → (addPlace (loadPlaces file) q).1.lastID = 1) ∧
      ((∃ x ∈ (loadPlaces file).places, 0 ≤ Atoi x.ID) →
        (addPlace (loadPlaces file) q).1.lastID = specNextID (loadPlaces file).places) := by
  obtain ⟨h0, -, -⟩ := loadPlaces_bounds file
  have hlt : (loadPlaces file).lastID < maxInt := by
    cases file with
    | none => simp [loadPlaces, maxInt]
    | some ps => exact foldl_lastID_lt ps 0 (by simp [maxInt]) h
  have hw : wrapInt ((loadPlaces file).lastID + 1) = (loadPlaces file).lastID + 1 :=
    wrapInt_of_range _ (by simp only [minInt]; omega) (by omega)
  have hl : (addPlace (loadPlaces file) q).1.lastID =
      max (specNextID (loadPlaces file).places) 1 := by
    rw [← loadPlaces_lastID_spec]
    simp only [addPlace, savePlaces, hw]
  refine ⟨hl, ?_, ?_, ?_⟩
  · rw [← loadPlaces_lastID_spec]
    simp only [addPlace, hw]
  · intro hnil
    rw [hl, hnil]
    simp [specNextID]
  · rintro ⟨x, hx, hx0⟩
    rw [hl]
    exact max_eq_left (specNextID_pos _ x hx hx0)

theorem nextID_after_load_witness :
    (∀ x ∈ (loadPlaces (some [karakhan, tekturmas, karakhanCopy])).places, Atoi x.ID < maxInt) ∧
      (addPlace (loadPlaces (some [karakhan, tekturmas, karakhanCopy])) aishaBibi).1.lastID = 3 ∧
      (addPlace (loadPlaces (some [karakhan, tekturmas, karakhanCopy])) aishaBibi).2 =
        ⟨201, .place { aishaBibi with ID := "3" }⟩ ∧
      (addPlace (loadPlaces (none : Option (List (Place ℚ)))) aishaBibi).1.lastID = 1 ∧
      specNextID [karakhan, tekturmas, karakhanCopy] = 3 := by
  have h := nextID_after_load (some [karakhan, tekturmas, karakhanCopy]) aishaBibi (by decide)
  have hnone := nextID_after_load (none : Option (List (Place ℚ))) aishaBibi (by decide)
  refine ⟨by decide, ?_, ?_, hnone.2.2.1 rfl, by decide⟩
  · rw [h.2.2.2 ⟨karakhan, by decide, by decide⟩]; decide
  · rw [h.2.1]; decide

/-- C13 as stated fails in two ways.  A file whose only ID is `-5` leaves the
counter at `0`, so the next ID is `1`, not `-5 + 1`; a file whose only ID is
the largest `int` makes the next ID wrap to `-2^63`, not `2^63`. -/
theorem nextID_negative_or_last :
    (addPlace (loadPlaces (some [negativePlace])) aishaBibi).1.lastID = 1 ∧
      (addPlace (loadPlaces (some [negativePlace])) aishaBibi).2 =
        ⟨201, .place { aishaBibi with ID := "1" }⟩ ∧
      specNextID [negativePlace] = -4 ∧
      (addPlace (loadPlaces (some [lastPlace])) aishaBibi).1.lastID = -9223372036854775808 ∧
      specNextID [lastPlace] = 9223372036854775808 := by
  decide

/-! ## The invariant on identifiers -/

theorem map_ID_replaced {F : Type} (pre post : List (Place F)) (p q : Place F)
    (hq : q.ID = p.ID) :
    (pre ++ q :: post).map (fun x => x.ID) = (pre ++ p :: post).map (fun x => x.ID) := by
  simp [hq]

theorem map_ID_erased {F : Type} [Finiteness F] (pre post : List (Place F)) (p : Place F) :
    ((pre ++ post).map (fun x => x.ID)).Sublist ((pre ++ p :: post).map (fun x => x.ID)) := by
  simp only [List.map_append, List.map_cons]
  exact List.Sublist.append (List.Sublist.refl _) (List.sublist_cons_self _ _)

/-- Every handler other than `addPlace` leaves in the collection a
subsequence of the IDs that were there. -/
theorem handle_ids_sublist {F : Type} [Add F] [Div F] [OfNat F 2] [Finiteness F] (s : State F) (r : Request F)
    (hr : ∀ q, r ≠ .addPlace q) :
    ((handle s r).1.places.map (fun x => x.ID)).Sublist (s.places.map (fun x => x.ID)) := by
  cases r with
  | getPlaces => exact List.Sublist.refl _
  | getPlaceByID id =>
    simp only [handle, getPlaceByID]
    split <;> exact List.Sublist.refl _
  | addPlace q => exact absurd rfl (hr q)
  | updatePlace id q =>
    cases hf : findFirst s.places id with
    | none => simp [handle, updatePlace, hf]
    | some ip =>
      obtain ⟨i, p⟩ := ip
      obtain ⟨pre, post, hps, hlen, -, -⟩ := findFirst_some s.places id i p hf
      subst hlen
      simp only [handle, updatePlace, hf, savePlaces]
      rw [hps, set_length_append, map_ID_replaced pre post p _ (by rfl)]
  | deletePlace id =>
    cases hf : findFirst s.places id with
    | none => simp [handle, deletePlace, hf]
    | some ip =>
      obtain ⟨i, p⟩ := ip
      obtain ⟨pre, post, hps, hlen, -, -⟩ := findFirst_some s.places id i p hf
      subst hlen
      simp only [handle, deletePlace, hf, savePlaces]
      rw [hps, eraseIdx_length_append]
      exact map_ID_erased pre post p
  | addComment id text =>
    cases hf : findFirst s.places id with
    | none => simp [handle, addComment, hf]
    | some ip =>
      obtain ⟨i, p⟩ := ip
      obtain ⟨pre, post, hps, hlen, -, -⟩ := findFirst_some s.places id i p hf
      subst hlen
      simp only [handle, addComment, hf, savePlaces]
      rw [hps, modify_length_append, map_ID_replaced pre post p _ (by rfl)]
  | addRating id value =>
    cases hf : findFirst s.places id with
    | none => simp [handle, addRating, hf]
    | some ip =>
      obtain ⟨i, p⟩ := ip
      obtain ⟨pre, post, hps, hlen, -, -⟩ := findFirst_some s.places id i p hf
      subst hlen
      simp only [handle, addRating, hf, savePlaces]
      rw [hps, modify_length_append, map_ID_replaced pre post p _ (by rfl)]
  | addPhoto id photo =>
    cases photo with
    | none => simp [handle, addPhoto]
    | some url =>
      cases hf : findFirst s.places id with
      | none => simp [handle, addPhoto, hf]
      | some ip =>
        obtain ⟨i, p⟩ := ip
        obtain ⟨pre, post, hps, hlen, -, -⟩ := findFirst_some s.places id i p hf
        subst hlen
        simp only [handle, addPhoto, hf, savePlaces]
        rw [hps, modify_length_append, map_ID_replaced pre post p _ (by rfl)]

theorem Atoi_repr (k : Nat) (hk : (k : Int) ≤ maxInt) : Atoi (Nat.repr k) = k := by
  rw [← Itoa_natCast]
  exact Atoi_Itoa _ (by simp only [minInt]; omega) hk

/-- One handler call keeps the invariant on identifiers, as long as an
`addPlace` does not find the counter at the largest `int`. -/
theorem handle_preserves_IdInvariant {F : Type} [Add F] [Div F] [OfNat F 2] [Finiteness F] (s : State F)
    (r : Request F) (hinv : IdInvariant s)
    (hadd : (∃ q, r = .addPlace q) → s.lastID < maxInt) :
    IdInvariant (handle s r).1 ∧ (handle s r).1.lastID = s.lastID + countAdds [r] := by
  obtain ⟨h0, hnodup, hids⟩ := hinv
  by_cases hr : ∃ q, r = .addPlace q
  · obtain ⟨q, rfl⟩ := hr
    have hlt := hadd ⟨q, rfl⟩
    simp only [maxInt] at hlt
    have hw : wrapInt (s.lastID + 1) = s.lastID + 1 :=
      wrapInt_of_range _ (by simp only [minInt]; omega) (by simp only [maxInt]; omega)
    have hnew : Itoa (s.lastID + 1) = Nat.repr (s.lastID + 1).toNat := by
      rw [← Itoa_natCast]
      congr 1
      omega
    refine ⟨⟨?_, ?_, ?_⟩, ?_⟩
    · simp only [handle, addPlace, savePlaces, hw]; omega
    · simp only [handle, addPlace, savePlaces, hw, List.map_append, List.map_cons, List.map_nil]
      refine List.Nodup.append hnodup (List.nodup_singleton _) ?_
      intro id hid hid'
      simp only [List.mem_singleton] at hid'
      obtain ⟨x, hx, rfl⟩ := List.mem_map.mp hid
      obtain ⟨k, -, hk, hxk⟩ := hids x hx
      have h1 := Atoi_repr k (by simp only [maxInt]; omega)
      have h2 := Atoi_Itoa (s.lastID + 1) (by simp only [minInt]; omega)
        (by simp only [maxInt]; omega)
      rw [← hxk, hid', h2] at h1
      omega
    · intro x hx
      simp only [handle, addPlace, savePlaces, hw, List.mem_append, List.mem_singleton] at hx ⊢
      rcases hx with hx | rfl
      · obtain ⟨k, hk1, hk, hxk⟩ := hids x hx
        exact ⟨k, hk1, by omega, hxk⟩
      · exact ⟨(s.lastID + 1).toNat, by omega, by omega, hnew⟩
    · simp [handle, addPlace, savePlaces, hw, countAdds]
  · have hr' : ∀ q, r ≠ .addPlace q := fun q hq => hr ⟨q, hq⟩
    have hl := (handle_keeps_ids s r hr').1
    have hsub := handle_ids_sublist s r hr'
    refine ⟨⟨by rw [hl]; exact h0, hnodup.sublist hsub, ?_⟩, ?_⟩
    · intro x hx
      obtain ⟨y, hy, hxy⟩ := (handle_keeps_ids s r hr').2 x hx
      obtain ⟨k, hk1, hk, hyk⟩ := hids y hy
      exact ⟨k, hk1, by rw [hl]; exact hk, by rw [← hxy]; exact hyk⟩
    · have hc : countAdds [r] = 0 := by
        rw [countAdds_cons_other r [] hr']; rfl
      simp [hl, hc]

theorem run_preserves_IdInvariant {F : Type} [Add F] [Div F] [OfNat F 2] [Finiteness F]
    (reqs : List (Request F)) : ∀ s : State F, IdInvariant s →
      s.lastID + countAdds reqs ≤ maxInt → IdInvariant (run s reqs).1 := by
  induction reqs with
  | nil => intro s hinv _; simpa [run] using hinv
  | cons r rest ih =>
    intro s hinv hbound
    have hsplit : countAdds (r :: rest) = countAdds [r] + countAdds rest := by
      rw [show r :: rest = [r] ++ rest from rfl, countAdds_append]
    rw [hsplit] at hbound
    have hadd : (∃ q, r = .addPlace q) → s.lastID < maxInt := by
      rintro ⟨q, rfl⟩
      simp only [countAdds] at hbound
      omega
    obtain ⟨hinv1, hl1⟩ := handle_preserves_IdInvariant s r hinv hadd
    simp only [run]
    exact ih _ hinv1 (by rw [hl1]; push_cast at hbound ⊢; omega)

theorem emptyStore_IdInvariant {F : Type} [Finiteness F] : IdInvariant (emptyStore : State F) := by
  simp [IdInvariant, emptyStore]

/-- C15: in every state reached from the empty store by a sequence of
handler calls with fewer than `2^63` creations, the IDs in the collection are
pairwise distinct and each is the decimal string of a positive integer not
greater than `lastID`; the IDs assigned so far are the decimal strings of
`1, 2, ..., lastID` in assignment order; and a handler call keeps the
invariant in any state that has it, an `addPlace` as long as the counter is
below the largest `int`. -/
theorem ids_consecutive {F : Type} [Add F] [Div F] [OfNat F 2] [Finiteness F] (reqs : List (Request F))
    (h : countAdds reqs < 2 ^ 63) :
    IdInvariant (run emptyStore reqs).1 ∧
      (run emptyStore reqs).1.lastID = countAdds reqs ∧
      createdIDs reqs (run emptyStore reqs).2 =
        (List.range (run emptyStore reqs).1.lastID.toNat).map (fun k => Nat.repr (k + 1)) ∧
      ∀ (s : State F) (r : Request F), IdInvariant s →
        ((∃ q, r = .addPlace q) → s.lastID < maxInt) → IdInvariant (handle s r).1 := by
  have hbound : (emptyStore : State F).lastID + countAdds reqs ≤ maxInt := by
    simp only [emptyStore, maxInt]; omega
  obtain ⟨hl, -, hids⟩ := run_invariant reqs (emptyStore : State F)
    (by simp [emptyStore, minInt]) hbound (by simp [emptyStore])
  have hl' : (run emptyStore reqs).1.lastID = countAdds reqs := by
    simpa [emptyStore] using hl
  refine ⟨run_preserves_IdInvariant reqs emptyStore emptyStore_IdInvariant hbound, hl', ?_,
    fun s r hinv hadd => (handle_preserves_IdInvariant s r hinv hadd).1⟩
  rw [hids, hl', Int.toNat_ofNat]
  apply List.map_congr_left
  intro k _
  rw [← Itoa_natCast]
  simp only [emptyStore, Nat.cast_add, Nat.cast_one]
  congr 1
  omega

theorem ids_consecutive_witness :
    countAdds scenarioCalls < 2 ^ 63 ∧
      IdInvariant (run emptyStore scenarioCalls).1 ∧
      (run emptyStore scenarioCalls).1.lastID = 3 ∧
      (run emptyStore scenarioCalls).1.places.map (fun p => p.ID) = ["2", "3"] ∧
      createdIDs scenarioCalls (run emptyStore scenarioCalls).2 = ["1", "2", "3"] ∧
      IdInvariant (handle (run emptyStore scenarioCalls).1 (.addPlace aishaBibi)).1 := by
  have h := ids_consecutive scenarioCalls (by decide)
  refine ⟨by decide, h.1, by decide, by decide, ?_, ?_⟩
  · rw [h.2.2.1, h.2.1]; decide
  · exact h.2.2.2 _ _ h.1 (fun _ => by decide)

/-! ## The rating as an exact rational -/

theorem rateTimes_places (id : String) (v : ℚ) (pre post : List (Place ℚ))
    (hall : ∀ x ∈ pre, x.ID ≠ id) : ∀ (n : Nat) (s : State ℚ) (p : Place ℚ),
    s.places = pre ++ p :: post → p.ID = id →
    (rateTimes id v n s).places =
      pre ++ { p with Rating := v + (p.Rating - v) / 2 ^ n } :: post := by
  intro n
  induction n with
  | zero =>
    intro s p hps _
    simp [rateTimes, hps]
  | succ n ih =>
    intro s p hps hid
    have hstep := addRating_places s id v pre p post hps hall hid
    rw [rateTimes, ih _ _ hstep hid]
    congr 2
    simp only [Place.mk.injEq, true_and, and_true]
    field_simp
    ring

/-- C17: with ratings read as exact rationals, the rating that `addRating`
stores lies between the smaller and the larger of the old rating `r` and the
submitted `v`, so it stays in `[0, 5]` when both are there; submitting `v`
`n` times from `r` gives `v + (r - v) / 2^n`, and each submission halves the
distance to `v`. -/
theorem rating_between (s : State ℚ) (id : String) (v : ℚ) (pre : List (Place ℚ))
    (p : Place ℚ) (post : List (Place ℚ)) (hps : s.places = pre ++ p :: post)
    (hall : ∀ x ∈ pre, x.ID ≠ id) (hid : p.ID = id) :
    (addRating s id v).1.places = pre ++ { p with Rating := (p.Rating + v) / 2 } :: post ∧
      min p.Rating v ≤ (p.Rating + v) / 2 ∧ (p.Rating + v) / 2 ≤ max p.Rating v ∧
      (0 ≤ p.Rating → p.Rating ≤ 5 → 0 ≤ v → v ≤ 5 →
        0 ≤ (p.Rating + v) / 2 ∧ (p.Rating + v) / 2 ≤ 5) ∧
      (∀ n : Nat, (rateTimes id v n s).places =
        pre ++ { p with Rating := v + (p.Rating - v) / 2 ^ n } :: post) ∧
      (∀ n : Nat, |v + (p.Rating - v) / 2 ^ (n + 1) - v| =
        |v + (p.Rating - v) / 2 ^ n - v| / 2) := by
  refine ⟨addRating_places s id v pre p post hps hall hid, ?_, ?_, ?_, ?_, ?_⟩
  · rcases le_total p.Rating v with hle | hle
    · rw [min_eq_left hle]; linarith
    · rw [min_eq_right hle]; linarith
  · rcases le_total p.Rating v with hle | hle
    · rw [max_eq_right hle]; linarith
    · rw [max_eq_left hle]; linarith
  · intro h1 h2 h3 h4
    constructor <;> linarith
  · intro n
    exact rateTimes_places id v pre post hall n s p hps hid
  · intro n
    have h2 : (0 : ℚ) < 2 := by norm_num
    rw [add_sub_cancel_left, add_sub_cancel_left, pow_succ, ← div_div, abs_div, abs_of_pos h2]

theorem rating_between_witness :
    (addRating sampleState "2" 5).1.places =
        [karakhan, { tekturmas with Rating := 3 }, karakhanCopy] ∧
      min tekturmas.Rating 5 ≤ (tekturmas.Rating + 5) / 2 ∧
      (tekturmas.Rating + 5) / 2 ≤ max tekturmas.Rating 5 ∧
      (0 ≤ (tekturmas.Rating + 5) / 2 ∧ (tekturmas.Rating + 5) / 2 ≤ 5) ∧
      (rateTimes "2" 5 2 sampleState).places =
        [karakhan, { tekturmas with Rating := 4 }, karakhanCopy] := by
  have h := rating_between sampleState "2" 5 [karakhan] tekturmas [karakhanCopy] rfl
    (by decide) rfl
  refine ⟨?_, h.2.1, h.2.2.1, h.2.2.2.1 (by norm_num [tekturmas]) (by norm_num [tekturmas])
    (by norm_num) (by norm_num), ?_⟩
  · rw [h.1]; norm_num [tekturmas]
  · rw [h.2.2.2.2.1 2]; norm_num [tekturmas]

end Hackaton
